import Mathlib

/-!
Verification of the sharded prime-storage subsystem
(`src/Python/lib/storage/{manager,metadata_io,pathing,shard_io}.py`).

The Python code is shallowly embedded: numpy integer arrays become
`List Int`, the filesystem becomes an explicit `Store` record holding the
shard archives, metadata documents, lock files and hash files, and every
Python function that can raise returns `PyResult`.  Python `int` is `Int`,
`math.ceil(a / b)` is exact integer ceiling division (with an explicit
`ZeroDivisionError` case), `//` is `Int.fdiv` (Python floor division), and
`x or y` on optional integers keeps Python truthiness (`0` is falsy).
-/

namespace Storage

/-- Abstract Python exception classes, as raised by the storage code. -/
inductive PyErr where
  | valueError
  | fileNotFound
  | fileExists
  | timeoutError
  | runtimeError
  | keyError
  | indexError
  | attributeError
  | nameError
  | osError
  | zeroDivisionError
deriving DecidableEq, Repr

deriving instance DecidableEq for Except

/-- Result of running a Python call: a value or a raised exception. -/
abbrev PyResult (α : Type) := Except PyErr α

/-- Python `math.ceil(a / b)` for integer `a`, `b` with `b ≠ 0`:
exact ceiling division expressed through floor division. -/
def pyCeil (a b : Int) : Int := -((-a).fdiv b)

/-- Python `math.ceil(a / b)`, raising `ZeroDivisionError` when `b = 0`. -/
def pyCeilDiv (a b : Int) : PyResult Int :=
  if b = 0 then .error .zeroDivisionError else .ok (pyCeil a b)

/-- Python `a or b` on optional integers: `a` wins iff it is truthy
(not `None` and not `0`). -/
def pyOrOpt (a b : Option Int) : Option Int :=
  match a with
  | some x => if x = 0 then b else some x
  | none => b

/-- Result record of `PartitionStrategy.calculate_plan`
(`manager.py`, class `PartitionPlan`). -/
structure PartitionPlan where
  items_per_shard : Int
  chunks_per_shard : Int
  items_per_chunk : Int
  total_shards : Int
  total_chunks : Int
deriving DecidableEq, Repr

/-- `PartitionStrategy._resolve_limit` (`manager.py` lines 104-170):
guard `item_bytes > 0`; a supplied `target_count` takes priority
(`ceil(total_items / target_count)`, byte limits ignored, nonpositive
count rejected); otherwise `limit_bytes = target_bytes or default_bytes`
must be a positive integer and the result is
`max(1, limit_bytes // item_bytes)`. -/
def resolve_limit (total_items item_bytes : Int)
    (target_count target_bytes default_bytes : Option Int) : PyResult Int :=
  if item_bytes ≤ 0 then .error .valueError
  else
    match target_count with
    | some c => if c ≤ 0 then .error .valueError else pyCeilDiv total_items c
    | none =>
      match pyOrOpt target_bytes default_bytes with
      | none => .error .valueError
      | some lb =>
        if lb ≤ 0 then .error .valueError
        else .ok (max 1 (lb.fdiv item_bytes))

/-- `PartitionStrategy.calculate_plan` (`manager.py` lines 47-102):
resolve items per shard, then items per chunk (never passing
`default_bytes`, exactly as the source does), clamp the chunk size to the
shard size, and derive the three ceiling-division counts in the order the
`PartitionPlan` constructor evaluates them. -/
def clampChunk (ipc0 ips : Int) : Int := if ipc0 > ips then ips else ipc0

def calculate_plan (total_items item_byte_size : Int)
    (target_shard_count target_chunks_per_shard
      max_shard_bytes max_chunk_bytes : Option Int) : PyResult PartitionPlan :=
  match resolve_limit total_items item_byte_size target_shard_count max_shard_bytes none with
  | .error e => .error e
  | .ok ips =>
    match resolve_limit ips item_byte_size target_chunks_per_shard max_chunk_bytes none with
    | .error e => .error e
    | .ok ipc0 =>
      match pyCeilDiv ips (clampChunk ipc0 ips) with
      | .error e => .error e
      | .ok cps =>
        match pyCeilDiv total_items ips with
        | .error e => .error e
        | .ok ts =>
          match pyCeilDiv total_items (clampChunk ipc0 ips) with
          | .error e => .error e
          | .ok tc => .ok ⟨ips, cps, clampChunk ipc0 ips, ts, tc⟩

example : calculate_plan 100 8 (some 3) (some 10) none none =
    .ok ⟨34, 9, 4, 3, 25⟩ := by decide

example : calculate_plan 100 8 (some 3) none none none = .error .valueError := by decide

example : resolve_limit 100 8 none (some 1000) none = .ok 125 := by decide

/-! ### Arithmetic facts about the planner -/

theorem pyCeil_mul_ge (a : Int) {b : Int} (hb : 0 < b) : a ≤ pyCeil a b * b := by
  unfold pyCeil
  rw [Int.fdiv_eq_ediv _ (le_of_lt hb)]
  have h := Int.emod_nonneg (-a) (ne_of_gt hb)
  have h2 := Int.ediv_add_emod (-a) b
  nlinarith [h, h2]

theorem pyCeil_pos {a b : Int} (ha : 0 < a) (hb : 0 < b) : 0 < pyCeil a b := by
  unfold pyCeil
  rw [Int.fdiv_eq_ediv _ (le_of_lt hb)]
  have h : -a / b < 0 := Int.ediv_neg' (by omega) hb
  omega

theorem pyCeil_nonneg {a b : Int} (ha : 0 ≤ a) (hb : 0 < b) : 0 ≤ pyCeil a b := by
  rcases eq_or_lt_of_le ha with h | h
  · simp [pyCeil, ← h]
  · exact le_of_lt (pyCeil_pos h hb)

theorem pyCeil_pred_mul_lt (a : Int) {b : Int} (hb : 0 < b) :
    (pyCeil a b - 1) * b < a := by
  unfold pyCeil
  rw [Int.fdiv_eq_ediv _ (le_of_lt hb)]
  have h := Int.emod_lt_of_pos (-a) hb
  have h2 := Int.ediv_add_emod (-a) b
  nlinarith [h, h2]

/-- Shape of every successful `_resolve_limit` call: the guard passed and
the result came from the target-count branch or from the byte-limit
branch. -/
theorem resolve_limit_ok {t ib : Int} {tc tb db : Option Int} {v : Int}
    (h : resolve_limit t ib tc tb db = .ok v) :
    0 < ib ∧
      ((∃ c, tc = some c ∧ 0 < c ∧ v = pyCeil t c) ∨
        (tc = none ∧ ∃ lb, pyOrOpt tb db = some lb ∧ 0 < lb ∧ v = max 1 (lb.fdiv ib))) := by
  unfold resolve_limit at h
  split at h
  · exact absurd h (by simp)
  next hib =>
  refine ⟨by omega, ?_⟩
  split at h
  next c =>
    split at h
    · exact absurd h (by simp)
    next hc =>
      unfold pyCeilDiv at h
      split at h
      · exact absurd h (by simp)
      · simp only [Except.ok.injEq] at h
        exact Or.inl ⟨c, rfl, by omega, h.symm⟩
  next =>
    split at h
    next => exact absurd h (by simp)
    next lb hor =>
      split at h
      · exact absurd h (by simp)
      next hlb =>
        simp only [Except.ok.injEq] at h
        exact Or.inr ⟨rfl, _, hor, by omega, h.symm⟩

/-- A resolved limit is positive whenever the input count is. -/
theorem resolve_limit_pos {t ib : Int} {tc tb db : Option Int} {v : Int}
    (ht : 0 < t) (h : resolve_limit t ib tc tb db = .ok v) : 0 < v := by
  rcases resolve_limit_ok h with ⟨hib, ⟨c, _, hc, hv⟩ | ⟨_, lb, _, hlb, hv⟩⟩
  · exact hv ▸ pyCeil_pos ht hc
  · rw [hv]; exact lt_of_lt_of_le one_pos (le_max_left _ _)

/-- Shape of every successful `calculate_plan` call: the two resolution
steps, the chunk clamp, and the three derived ceiling counts. -/
theorem calculate_plan_ok {t is : Int} {tsc tcps msb mcb : Option Int} {p : PartitionPlan}
    (h : calculate_plan t is tsc tcps msb mcb = .ok p) :
    ∃ ipc0,
      resolve_limit t is tsc msb none = .ok p.items_per_shard ∧
      resolve_limit p.items_per_shard is tcps mcb none = .ok ipc0 ∧
      p.items_per_chunk = clampChunk ipc0 p.items_per_shard ∧
      p.chunks_per_shard = pyCeil p.items_per_shard p.items_per_chunk ∧
      p.total_shards = pyCeil t p.items_per_shard ∧
      p.total_chunks = pyCeil t p.items_per_chunk := by
  unfold calculate_plan at h
  split at h
  · exact absurd h (by simp)
  next ips hips =>
  split at h
  · exact absurd h (by simp)
  next ipc0 hipc0 =>
  rcases eq_or_ne (clampChunk ipc0 ips) 0 with h1 | h1
  · simp [pyCeilDiv, h1] at h
  rcases eq_or_ne ips 0 with h2 | h2
  · rw [h2] at h
    split at h <;> simp [pyCeilDiv] at h
  simp only [pyCeilDiv, if_neg h1, if_neg h2, Except.ok.injEq] at h
  subst h
  exact ⟨ipc0, hips, hipc0, rfl, rfl, rfl, rfl⟩

/-- Under a positive item count, both resolved plan fields are positive. -/
theorem calculate_plan_pos {t is : Int} {tsc tcps msb mcb : Option Int} {p : PartitionPlan}
    (ht : 0 < t) (h : calculate_plan t is tsc tcps msb mcb = .ok p) :
    0 < p.items_per_shard ∧ 0 < p.items_per_chunk := by
  obtain ⟨ipc0, hips, hipc0, hclamp, -, -, -⟩ := calculate_plan_ok h
  have h1 : 0 < p.items_per_shard := resolve_limit_pos ht hips
  have h2 : 0 < ipc0 := resolve_limit_pos h1 hipc0
  refine ⟨h1, ?_⟩
  rw [hclamp]; unfold clampChunk
  split <;> omega

/-- C8 (plan monotonicity): for any successful plan over a positive item
count, a chunk never exceeds its shard, and the shard and chunk counts
cover all items. -/
theorem c8_plan_monotonicity {t is : Int} {tsc tcps msb mcb : Option Int}
    {p : PartitionPlan} (ht : 0 < t)
    (h : calculate_plan t is tsc tcps msb mcb = .ok p) :
    p.items_per_chunk ≤ p.items_per_shard ∧
      t ≤ p.total_shards * p.items_per_shard ∧
      t ≤ p.total_chunks * p.items_per_chunk := by
  obtain ⟨ipc0, hips, hipc0, hclamp, -, hts, htc⟩ := calculate_plan_ok h
  obtain ⟨h1, h2⟩ := calculate_plan_pos ht h
  refine ⟨?_, ?_, ?_⟩
  · rw [hclamp]; unfold clampChunk; split <;> omega
  · rw [hts]; exact pyCeil_mul_ge t h1
  · rw [htc]; exact pyCeil_mul_ge t h2

/-- C8 witness: the plan for 100 items of 8 bytes with 3 target shards and
10 chunks per shard satisfies the monotonicity bounds. -/
theorem c8_plan_monotonicity_witness :
    (0 : Int) < 100 ∧
      calculate_plan 100 8 (some 3) (some 10) none none = .ok ⟨34, 9, 4, 3, 25⟩ ∧
      ((4 : Int) ≤ 34 ∧ (100 : Int) ≤ 3 * 34 ∧ (100 : Int) ≤ 25 * 4) :=
  ⟨by decide, by decide,
    @c8_plan_monotonicity 100 8 (some 3) (some 10) none none ⟨34, 9, 4, 3, 25⟩
      (by decide) (by decide)⟩

/-- C7 (amended): the full contract of `_resolve_limit`, together with the
corrected concrete scenario: `calculate_plan(100, 8, target_shard_count=3)`
raises `InvalidArgument` because `calculate_plan` supplies no default byte
limit for the chunk resolution, while adding `target_chunks_per_shard=10`
(the `save` default) yields `items_per_shard=34`, `total_shards=3`,
`items_per_chunk=4 ≤ 34`. -/
theorem c7_resolve_limit_contract :
    (∀ t ib tc tb db, ib ≤ 0 → resolve_limit t ib tc tb db = .error .valueError) ∧
      (∀ t ib c tb db, 0 < ib → 0 < c →
        resolve_limit t ib (some c) tb db = .ok (pyCeil t c)) ∧
      (∀ t ib tb db, 0 < ib →
        resolve_limit t ib (some 0) tb db = .error .valueError) ∧
      (∀ t ib tb db, 0 < ib → pyOrOpt tb db = none →
        resolve_limit t ib none tb db = .error .valueError) ∧
      (∀ t ib tb db lb, 0 < ib → pyOrOpt tb db = some lb → lb ≤ 0 →
        resolve_limit t ib none tb db = .error .valueError) ∧
      (∀ t ib tb db lb, 0 < ib → pyOrOpt tb db = some lb → 0 < lb →
        resolve_limit t ib none tb db = .ok (max 1 (lb.fdiv ib))) ∧
      calculate_plan 100 8 (some 3) none none none = .error .valueError ∧
      calculate_plan 100 8 (some 3) (some 10) none none = .ok ⟨34, 9, 4, 3, 25⟩ := by
  refine ⟨?_, ?_, ?_, ?_, ?_, ?_, by decide, by decide⟩
  · intro t ib tc tb db hib
    simp [resolve_limit, hib]
  · intro t ib c tb db hib hc
    have hc0 : ¬ c = 0 := by omega
    simp [resolve_limit, pyCeilDiv, not_le.mpr hib, not_le.mpr hc, hc0]
  · intro t ib tb db hib
    simp [resolve_limit, not_le.mpr hib]
  · intro t ib tb db hib hor
    simp [resolve_limit, not_le.mpr hib, hor]
  · intro t ib tb db lb hib hor hlb
    simp [resolve_limit, not_le.mpr hib, hor, hlb]
  · intro t ib tb db lb hib hor hlb
    simp [resolve_limit, not_le.mpr hib, hor, not_le.mpr hlb]

/-- C7 witness: each clause of the `_resolve_limit` contract applied at a
concrete input. -/
theorem c7_resolve_limit_contract_witness :
    resolve_limit 5 0 none none none = .error .valueError ∧
      resolve_limit 100 8 (some 3) (some 9999) none = .ok (pyCeil 100 3) ∧
      resolve_limit 100 8 (some 0) none none = .error .valueError ∧
      resolve_limit 100 8 none (some 0) none = .error .valueError ∧
      resolve_limit 100 8 none (some (-4)) none = .error .valueError ∧
      resolve_limit 100 8 none (some 1000) none = .ok (max 1 ((1000 : Int).fdiv 8)) :=
  ⟨c7_resolve_limit_contract.1 5 0 none none none (by decide),
    c7_resolve_limit_contract.2.1 100 8 3 (some 9999) none (by decide) (by decide),
    c7_resolve_limit_contract.2.2.1 100 8 none none (by decide),
    c7_resolve_limit_contract.2.2.2.1 100 8 (some 0) none (by decide) (by decide),
    c7_resolve_limit_contract.2.2.2.2.1 100 8 (some (-4)) none (-4) (by decide) (by decide)
      (by decide),
    c7_resolve_limit_contract.2.2.2.2.2.1 100 8 (some 1000) none 1000 (by decide) (by decide)
      (by decide)⟩

/-- C7 counterexample: the claim asserts that
`calculate_plan(100, 8, target_shard_count=3)` yields a plan with
`items_per_shard = 34`; the code instead raises, because no chunk byte
limit is supplied and `calculate_plan` passes no default. -/
theorem c7_scenario_s6_counterexample :
    calculate_plan 100 8 (some 3) none none none = .error .valueError := by decide

/-! ### numpy primitives: `unique`, slicing -/

/-- Collapse adjacent duplicates of an already-sorted list. -/
def dedupSorted : List Int → List Int
  | [] => []
  | [x] => [x]
  | x :: y :: rest => if x = y then dedupSorted (y :: rest) else x :: dedupSorted (y :: rest)

/-- `numpy.unique`: sort ascending and drop duplicates. -/
def npUnique (l : List Int) : List Int := dedupSorted (List.insertionSort (· ≤ ·) l)

/-- Python slice `l[a:b]` for `0 ≤ a ≤ b` (`b` may exceed the length). -/
def pySlice (l : List Int) (a b : Nat) : List Int := (l.drop a).take (b - a)

/-- Nat ceiling division `⌈a / b⌉`, as the element count of
`range(0, a, b)`. -/
def natCeil (a b : Nat) : Nat := (a + b - 1) / b

example : npUnique [5, 3, 5, 1] = [1, 3, 5] := by decide
example : pySlice [1, 2, 3, 4, 5] 2 4 = [3, 4] := by decide
example : natCeil 10 4 = 3 := by decide

theorem mem_dedupSorted {x : Int} : ∀ {l : List Int}, x ∈ dedupSorted l ↔ x ∈ l
  | [] => Iff.rfl
  | [y] => Iff.rfl
  | y :: z :: rest => by
    unfold dedupSorted
    split
    next heq =>
      rw [mem_dedupSorted (l := z :: rest)]
      subst heq
      simp [List.mem_cons]
    next =>
      simp only [List.mem_cons]
      rw [mem_dedupSorted (l := z :: rest)]
      simp [List.mem_cons]

theorem dedupSorted_eq_self : ∀ {l : List Int}, l.Sorted (· < ·) → dedupSorted l = l
  | [], _ => rfl
  | [x], _ => rfl
  | x :: y :: rest, h => by
    have hxy : x < y := (List.pairwise_cons.mp h).1 y (by simp)
    have ht : (y :: rest).Sorted (· < ·) := (List.pairwise_cons.mp h).2
    unfold dedupSorted
    rw [if_neg (by omega)]
    rw [dedupSorted_eq_self ht]

theorem npUnique_eq_self {l : List Int} (h : l.Sorted (· < ·)) : npUnique l = l := by
  unfold npUnique
  rw [List.Sorted.insertionSort_eq (h.imp le_of_lt), dedupSorted_eq_self h]

theorem mem_npUnique {x : Int} {l : List Int} : x ∈ npUnique l ↔ x ∈ l := by
  unfold npUnique
  rw [mem_dedupSorted, (List.perm_insertionSort (· ≤ ·) l).mem_iff]

theorem pySlice_length {l : List Int} {a b : Nat} :
    (pySlice l a b).length = min (b - a) (l.length - a) := by
  simp [pySlice]

theorem pySlice_ne_nil {l : List Int} {a b : Nat} (ha : a < l.length) (hb : a < b) :
    pySlice l a b ≠ [] := by
  have := pySlice_length (l := l) (a := a) (b := b)
  intro hnil
  rw [hnil] at this
  simp at this
  omega

theorem pySlice_sorted {l : List Int} (h : l.Sorted (· < ·)) (a b : Nat) :
    (pySlice l a b).Sorted (· < ·) :=
  List.Pairwise.sublist ((List.take_sublist _ _).trans (List.drop_sublist _ _)) h

theorem natCeil_succ_pred {a b : Nat} (ha : 1 ≤ a) (hb : 1 ≤ b) :
    natCeil a b = (a - 1) / b + 1 := by
  unfold natCeil
  rw [show a + b - 1 = (a - 1) + b by omega, Nat.add_div_right _ hb]

theorem natCeil_mul_ge {a b : Nat} (hb : 1 ≤ b) : a ≤ natCeil a b * b := by
  rcases Nat.eq_zero_or_pos a with rfl | ha
  · exact Nat.zero_le _
  obtain ⟨c, rfl⟩ : ∃ c, a = c + 1 := ⟨a - 1, by omega⟩
  rw [natCeil_succ_pred (by omega) hb]
  have h1 := Nat.div_add_mod c b
  have h2 : c % b < b := Nat.mod_lt _ (by omega)
  have e1 : ((c + 1 - 1) / b + 1) * b = b * (c / b) + b := by
    simp only [Nat.add_sub_cancel]
    ring
  rw [e1]
  linarith [h1, h2]

theorem natCeil_pred_mul_lt {a b : Nat} (ha : 1 ≤ a) (hb : 1 ≤ b) :
    (natCeil a b - 1) * b < a := by
  obtain ⟨c, rfl⟩ : ∃ c, a = c + 1 := ⟨a - 1, by omega⟩
  rw [natCeil_succ_pred (by omega) hb]
  simp only [Nat.add_sub_cancel]
  have h1 := Nat.div_mul_le_self c b
  linarith [h1]

theorem natCeil_pos {a b : Nat} (ha : 1 ≤ a) (hb : 1 ≤ b) : 1 ≤ natCeil a b := by
  rw [natCeil_succ_pred ha hb]
  exact Nat.le_add_left 1 _

/-- The slices of width `n` starting at `0, n, 2n, …` tile the list. -/
theorem tile_flatten {n : Nat} (hn : 1 ≤ n) :
    ∀ (S : Nat) (l : List Int), l.length ≤ S * n →
      ((List.range S).map (fun i => pySlice l (i * n) (i * n + n))).flatten = l := by
  intro S
  induction S with
  | zero =>
    intro l h
    simp only [Nat.zero_mul, Nat.le_zero] at h
    rw [List.length_eq_zero] at h
    simp [h]
  | succ S ih =>
    intro l h
    rw [List.range_succ_eq_map, List.map_cons, List.map_map, List.flatten_cons]
    have h0 : pySlice l (0 * n) (0 * n + n) = l.take n := by
      simp [pySlice]
    have hshift : ∀ i : Nat,
        pySlice l ((i + 1) * n) ((i + 1) * n + n) =
          pySlice (l.drop n) (i * n) (i * n + n) := by
      intro i
      have h1 : (i + 1) * n = i * n + n := Nat.succ_mul i n
      generalize hk : i * n = k at *
      rw [h1]
      show (l.drop (k + n)).take (k + n + n - (k + n)) = ((l.drop n).drop k).take (k + n - k)
      rw [List.drop_drop]
      have e2 : k + n + n - (k + n) = n := by omega
      have e3 : k + n - k = n := by omega
      rw [e2, e3]
      first
      | rfl
      | (congr 2; omega)
    have htail :
        ((List.range S).map ((fun i => pySlice l (i * n) (i * n + n)) ∘ Nat.succ)).flatten
          = l.drop n := by
      have : ((fun i => pySlice l (i * n) (i * n + n)) ∘ Nat.succ) =
          fun i => pySlice (l.drop n) (i * n) (i * n + n) := by
        funext i
        simp only [Function.comp_apply]
        exact hshift i
      rw [this]
      apply ih
      have := l.length_drop n
      rw [this]
      have : (S + 1) * n = S * n + n := by ring
      omega
    rw [h0, htail, List.take_append_drop]

/-! ### Decimal representations are injective (needed for shard paths and
chunk names, which the source derives with f-strings and `str`). -/

def digitVal (c : Char) : Nat := c.toNat - 48

def decVal (l : List Char) : Nat := l.foldl (fun a c => a * 10 + digitVal c) 0

theorem toDigitsCore_acc (fuel : Nat) :
    ∀ (n : Nat) (ds : List Char),
      Nat.toDigitsCore 10 fuel n ds = Nat.toDigitsCore 10 fuel n [] ++ ds := by
  induction fuel with
  | zero => intro n ds; simp [Nat.toDigitsCore]
  | succ fuel ih =>
    intro n ds
    simp only [Nat.toDigitsCore]
    split
    · rfl
    · rw [ih (n / 10) (Nat.digitChar (n % 10) :: ds),
        ih (n / 10) [Nat.digitChar (n % 10)], List.append_assoc]
      rfl

theorem toDigitsCore_fuel :
    ∀ (f₁ f₂ n : Nat), n < f₁ → n < f₂ →
      Nat.toDigitsCore 10 f₁ n [] = Nat.toDigitsCore 10 f₂ n [] := by
  intro f₁
  induction f₁ with
  | zero => intro f₂ n h; omega
  | succ f₁ ih =>
    intro f₂ n h1 h2
    match f₂, h2 with
    | f₂ + 1, _ =>
      simp only [Nat.toDigitsCore]
      split
      · rfl
      next hz =>
        have hn : 10 ≤ n := by
          rcases Nat.lt_or_ge n 10 with h | h
          · exact absurd ((Nat.div_eq_zero_iff (by norm_num)).mpr h) hz
          · exact h
        have hlt : n / 10 < n := Nat.div_lt_self (by omega) (by norm_num)
        rw [toDigitsCore_acc f₁, toDigitsCore_acc f₂,
          ih f₂ (n / 10) (by omega) (by omega)]

theorem toDigits_ten (n : Nat) :
    Nat.toDigits 10 n =
      if n < 10 then [Nat.digitChar n]
      else Nat.toDigits 10 (n / 10) ++ [Nat.digitChar (n % 10)] := by
  unfold Nat.toDigits
  simp only [Nat.toDigitsCore]
  split
  next hz =>
    have hlt : n < 10 := (Nat.div_eq_zero_iff (by norm_num)).mp hz
    rw [if_pos hlt, Nat.mod_eq_of_lt hlt]
  next hz =>
    have hn : 10 ≤ n := by
      rcases Nat.lt_or_ge n 10 with h | h
      · exact absurd ((Nat.div_eq_zero_iff (by norm_num)).mpr h) hz
      · exact h
    rw [if_neg (by omega)]
    rw [toDigitsCore_acc n (n / 10)]
    congr 1
    exact toDigitsCore_fuel n (n / 10 + 1) (n / 10)
      (Nat.div_lt_self (by omega) (by norm_num)) (Nat.lt_succ_self _)

theorem digitVal_digitChar {d : Nat} (h : d < 10) : digitVal (Nat.digitChar d) = d := by
  interval_cases d <;> rfl

theorem isDigit_digitChar {d : Nat} (h : d < 10) : (Nat.digitChar d).isDigit = true := by
  interval_cases d <;> rfl

theorem decVal_concat (l : List Char) (c : Char) :
    decVal (l ++ [c]) = decVal l * 10 + digitVal c := by
  simp [decVal, List.foldl_append]

theorem decVal_toDigits : ∀ n : Nat, decVal (Nat.toDigits 10 n) = n := by
  intro n
  induction n using Nat.strong_induction_on with
  | _ n ih =>
    rw [toDigits_ten]
    split
    next h =>
      simp [decVal, digitVal_digitChar h]
    next h =>
      rw [decVal_concat, ih (n / 10) (Nat.div_lt_self (by omega) (by norm_num)),
        digitVal_digitChar (Nat.mod_lt _ (by norm_num))]
      omega

theorem toDigits_isDigit : ∀ n : Nat, ∀ c ∈ Nat.toDigits 10 n, c.isDigit = true := by
  intro n
  induction n using Nat.strong_induction_on with
  | _ n ih =>
    rw [toDigits_ten]
    split
    next h =>
      intro c hc
      simp only [List.mem_singleton] at hc
      exact hc ▸ isDigit_digitChar h
    next h =>
      intro c hc
      rw [List.mem_append] at hc
      rcases hc with hc | hc
      · exact ih (n / 10) (Nat.div_lt_self (by omega) (by norm_num)) c hc
      · simp only [List.mem_singleton] at hc
        exact hc ▸ isDigit_digitChar (Nat.mod_lt _ (by norm_num))

theorem toDigits_ne_nil (n : Nat) : Nat.toDigits 10 n ≠ [] := by
  rw [toDigits_ten]
  split
  · simp
  · simp

theorem toDigits_inj {m n : Nat} (h : Nat.toDigits 10 m = Nat.toDigits 10 n) : m = n := by
  have := congrArg decVal h
  rwa [decVal_toDigits, decVal_toDigits] at this

theorem natRepr_inj {m n : Nat} (h : Nat.repr m = Nat.repr n) : m = n := by
  have hd : (Nat.toDigits 10 m) = (Nat.toDigits 10 n) := by
    have : (Nat.repr m).data = (Nat.repr n).data := by rw [h]
    simpa [Nat.repr] using this
  exact toDigits_inj hd

theorem natRepr_isDigit (n : Nat) : ∀ c ∈ (Nat.repr n).data, c.isDigit = true := by
  intro c hc
  exact toDigits_isDigit n c (by simpa [Nat.repr] using hc)

/-- The decimal digits (and the minus sign) never contain an underscore. -/
theorem natRepr_no_underscore (n : Nat) : '_' ∉ (Nat.repr n).data := by
  intro h
  have := natRepr_isDigit n '_' h
  simp [Char.isDigit] at this

theorem intRepr_data_ofNat (m : Nat) : (Int.repr (Int.ofNat m)).data = Nat.toDigits 10 m := rfl

theorem intRepr_data_negSucc (m : Nat) :
    (Int.repr (Int.negSucc m)).data = '-' :: Nat.toDigits 10 (m + 1) := rfl

theorem intRepr_no_underscore (i : Int) : '_' ∉ (Int.repr i).data := by
  match i with
  | .ofNat m => exact natRepr_no_underscore m
  | .negSucc m =>
    rw [intRepr_data_negSucc]
    intro h
    rcases List.mem_cons.mp h with h | h
    · exact absurd h.symm (by decide)
    · exact natRepr_no_underscore (m + 1) h

theorem intRepr_inj {i j : Int} (h : Int.repr i = Int.repr j) : i = j := by
  have hd := congrArg String.data h
  match i, j with
  | .ofNat m, .ofNat n =>
    rw [intRepr_data_ofNat, intRepr_data_ofNat] at hd
    exact congrArg Int.ofNat (toDigits_inj hd)
  | .ofNat m, .negSucc n =>
    rw [intRepr_data_ofNat, intRepr_data_negSucc] at hd
    obtain ⟨c, cs, hcons⟩ : ∃ c cs, Nat.toDigits 10 m = c :: cs := by
      rcases hdig : Nat.toDigits 10 m with _ | ⟨c, cs⟩
      · exact absurd hdig (toDigits_ne_nil m)
      · exact ⟨c, cs, rfl⟩
    rw [hcons] at hd
    have hc : c = '-' := (List.cons.injEq _ _ _ _ ▸ hd).1
    have : c.isDigit = true := toDigits_isDigit m c (hcons ▸ List.mem_cons_self c cs)
    rw [hc] at this
    exact absurd this (by decide)
  | .negSucc m, .ofNat n =>
    rw [intRepr_data_ofNat, intRepr_data_negSucc] at hd
    obtain ⟨c, cs, hcons⟩ : ∃ c cs, Nat.toDigits 10 n = c :: cs := by
      rcases hdig : Nat.toDigits 10 n with _ | ⟨c, cs⟩
      · exact absurd hdig (toDigits_ne_nil n)
      · exact ⟨c, cs, rfl⟩
    rw [hcons] at hd
    have hc : '-' = c := (List.cons.injEq _ _ _ _ ▸ hd).1
    have : c.isDigit = true := toDigits_isDigit n c (hcons ▸ List.mem_cons_self c cs)
    rw [← hc] at this
    exact absurd this (by decide)
  | .negSucc m, .negSucc n =>
    rw [intRepr_data_negSucc, intRepr_data_negSucc] at hd
    have htail : Nat.toDigits 10 (m + 1) = Nat.toDigits 10 (n + 1) :=
      (List.cons.injEq _ _ _ _ ▸ hd).2
    have hmn : m + 1 = n + 1 := toDigits_inj htail
    have : m = n := by omega
    exact congrArg Int.negSucc this

/-- Splitting two equal strings at the first underscore. -/
theorem append_underscore_inj :
    ∀ {l₁ l₂ r₁ r₂ : List Char}, '_' ∉ l₁ → '_' ∉ l₂ →
      l₁ ++ '_' :: r₁ = l₂ ++ '_' :: r₂ → l₁ = l₂ ∧ r₁ = r₂ := by
  intro l₁
  induction l₁ with
  | nil =>
    intro l₂ r₁ r₂ h₁ h₂ h
    match l₂ with
    | [] => simpa using h
    | c :: cs =>
      simp only [List.nil_append, List.cons_append, List.cons.injEq] at h
      exact absurd (h.1 ▸ List.mem_cons_self c cs) h₂
  | cons a as ih =>
    intro l₂ r₁ r₂ h₁ h₂ h
    match l₂ with
    | [] =>
      simp only [List.nil_append, List.cons_append, List.cons.injEq] at h
      exact absurd (h.1 ▸ List.mem_cons_self a as) h₁
    | c :: cs =>
      simp only [List.cons_append, List.cons.injEq] at h
      obtain ⟨hac, htail⟩ := h
      have h₁' : '_' ∉ as := fun hm => h₁ (List.mem_cons_of_mem a hm)
      have h₂' : '_' ∉ cs := fun hm => h₂ (List.mem_cons_of_mem c hm)
      obtain ⟨he, hr⟩ := ih h₁' h₂' htail
      exact ⟨by rw [hac, he], hr⟩

/-! ### Chunk and shard names -/

/-- `ShardManager._generate_name(chunk[0], chunk[-1])` (`manager.py` line
250): `"_".join(map(str, args))` applied to the two end items. -/
def generate_name2 (a b : Int) : String := toString a ++ "_" ++ toString b

/-- `ShardManager._generate_name([chunk[0], chunk[-1]])` (`manager.py`
line 387): the same helper applied to one argument that is a list, so the
name is Python `str` of that list. -/
def generate_name_listarg (ab : List Int) : String :=
  "[" ++ String.intercalate ", " (ab.map toString) ++ "]"

/-- The module-level data directory of `manager.py`
(`Path(__file__).resolve().parents[2] / "data"`, two levels above the
storage package); its absolute prefix is host-specific, the shape is not. -/
def data_directory : String := "/repo/src/Python/data"

/-- The shard path built in `ShardManager.save` (`manager.py` lines
237-240): `<data_dir>/prime_shard_{idx+1}_of_{total_shards}.npz`. -/
def shard_path_name (idx : Nat) (totalShards : Int) : String :=
  data_directory ++ "/prime_shard_" ++ toString (idx + 1) ++ "_of_" ++
    toString totalShards ++ ".npz"

theorem generate_name2_inj {a b c d : Int}
    (h : generate_name2 a b = generate_name2 c d) : a = c ∧ b = d := by
  unfold generate_name2 at h
  have hd := congrArg String.data h
  simp only [String.data_append] at hd
  have h1 : (toString a).data ++ '_' :: (toString b).data =
      (toString c).data ++ '_' :: (toString d).data := by
    simpa using hd
  obtain ⟨hl, hr⟩ := append_underscore_inj
    (by simpa [toString] using intRepr_no_underscore a)
    (by simpa [toString] using intRepr_no_underscore c) h1
  exact ⟨intRepr_inj (String.ext hl), intRepr_inj (String.ext hr)⟩

theorem shard_path_name_inj {i j : Nat} {S : Int}
    (h : shard_path_name i S = shard_path_name j S) : i = j := by
  unfold shard_path_name at h
  have hd := congrArg String.data h
  simp only [String.data_append] at hd
  rw [List.append_assoc, List.append_assoc, List.append_assoc, List.append_assoc,
    List.append_assoc, List.append_assoc] at hd
  have hd2 := List.append_cancel_left hd
  have hd3 := List.append_cancel_left hd2
  have h1 : (toString (i + 1)).data ++
        '_' :: (("of_" ++ toString S ++ ".npz").data) =
      (toString (j + 1)).data ++
        '_' :: (("of_" ++ toString S ++ ".npz").data) := by
    simpa [String.data_append] using hd3
  obtain ⟨hl, -⟩ := append_underscore_inj
    (by
      have := natRepr_no_underscore (i + 1)
      simpa [toString] using this)
    (by
      have := natRepr_no_underscore (j + 1)
      simpa [toString] using this) h1
  have := natRepr_inj (String.ext hl)
  omega

/-! ### LockFile (`pathing.py`, class `LockFile`) -/

/-- One line of a lock file, as the two Python parses see it: an
integer-formatted line (accepted by both `int()` and `float()`), a
fractional numeric line (accepted by `float()` only, its value modeled to
integer precision of seconds), or a non-numeric line (rejected by both). -/
inductive LockLine where
  | intNum (n : Int)
  | floatNum (q : Int)
  | nonNumeric
deriving DecidableEq

/-- `int(pid_line)`. -/
def parse_int_line : LockLine → PyResult Int
  | .intNum n => .ok n
  | _ => .error .valueError

/-- `float(timestamp_line)`. -/
def parse_float_line : LockLine → PyResult Int
  | .intNum n => .ok n
  | .floatNum q => .ok q
  | .nonNumeric => .error .valueError

/-- `LockFile._read_lock_info` (`pathing.py` lines 179-191): exactly two
lines, `int` pid then `float` timestamp, else `ValueError`. -/
def read_lock_info (c : List LockLine) : PyResult (Int × Int) :=
  match c with
  | [pidLine, tsLine] =>
    match parse_int_line pidLine with
    | .error e => .error e
    | .ok p =>
      match parse_float_line tsLine with
      | .error e => .error e
      | .ok t => .ok (p, t)
  | _ => .error .valueError

/-- The compile-time staleness threshold (`_lock_timeout_seconds = 60`). -/
def lock_timeout_seconds : Int := 60

/-- `LockFile._is_stale` (`pathing.py` lines 193-209): a missing file is
not stale; a parse error means stale; otherwise compare the age with the
60-second timeout. -/
def is_stale (c : Option (List LockLine)) (now : Int) : Bool :=
  match c with
  | none => false
  | some lines =>
    match read_lock_info lines with
    | .ok (_, ts) => decide (now - ts > lock_timeout_seconds)
    | .error _ => true

/-- `LockFile.verify_lock_file` (`pathing.py` lines 217-236): the stored
pid must match and the lock must be younger than the timeout; parse
failures and a missing file give `false`. -/
def verify_lock_file (c : Option (List LockLine)) (pid : Int) (now : Int) : Bool :=
  match c with
  | none => false
  | some lines =>
    match read_lock_info lines with
    | .ok (p, ts) => decide (p = pid) && decide (now - ts < lock_timeout_seconds)
    | .error _ => false

/-- `LockFile.release_lock` (`pathing.py` lines 159-169): unlink when this
pid verifiably owns the lock or `ignore_lock` is set, else
`RuntimeError`.  Returns the new lock-file state. -/
def release_lock (c : Option (List LockLine)) (pid : Int) (now : Int)
    (ignore_lock : Bool) : PyResult (Option (List LockLine)) :=
  if verify_lock_file c pid now || ignore_lock then .ok none
  else .error .runtimeError

/-- `LockFile.acquire_lock` (`pathing.py` lines 141-157): atomically
create the lock and write `pid\ntimestamp`; on collision, remove the
existing lock if stale, and raise `TimeoutError` either way.  Returns the
outcome together with the new lock-file state. -/
def acquire_lock (c : Option (List LockLine)) (pid : Int) (now : Int) :
    PyResult Unit × Option (List LockLine) :=
  match c with
  | none => (.ok (), some [.intNum pid, .floatNum now])
  | some lines =>
    if is_stale (some lines) now then
      match release_lock (some lines) pid now true with
      | .ok c2 => (.error .timeoutError, c2)
      | .error e => (.error e, some lines)
    else (.error .timeoutError, some lines)

example :
    acquire_lock (some [.intNum 7, .floatNum 100]) 9 120 =
      (.error .timeoutError, some [.intNum 7, .floatNum 100]) := by decide

example :
    acquire_lock (some [.intNum 7, .floatNum 10]) 9 120 =
      (.error .timeoutError, none) := by decide

example : acquire_lock (some [.nonNumeric]) 9 0 = (.error .timeoutError, none) := by decide

/-- Claim-side characterisation of a lock file that `acquire` must leave
in place: exactly two lines, an integer pid line, a numeric timestamp
line, and an age within the 60-second timeout. -/
def freshWellFormed (c : List LockLine) (now : Int) : Prop :=
  ∃ (p : Int) (tl : LockLine) (t : Int),
    c = [.intNum p, tl] ∧ parse_float_line tl = .ok t ∧
      now - t ≤ lock_timeout_seconds

theorem read_lock_info_two {n : Int} {b : LockLine} :
    read_lock_info [.intNum n, b] =
      (match parse_float_line b with
       | .error e => .error e
       | .ok t => .ok (n, t)) := rfl

theorem read_lock_info_ok {c : List LockLine} {p t : Int} :
    read_lock_info c = .ok (p, t) ↔
      ∃ tl, c = [.intNum p, tl] ∧ parse_float_line tl = .ok t := by
  constructor
  · intro h
    match c with
    | [] => exact absurd h (by simp [read_lock_info])
    | [a] => exact absurd h (by simp [read_lock_info])
    | a :: b :: d :: rest => exact absurd h (by simp [read_lock_info])
    | [a, b] =>
      match a with
      | .floatNum q => exact absurd h (by simp [read_lock_info, parse_int_line])
      | .nonNumeric => exact absurd h (by simp [read_lock_info, parse_int_line])
      | .intNum n =>
        rw [read_lock_info_two] at h
        match hb : parse_float_line b with
        | .error e => rw [hb] at h; exact absurd h (by simp)
        | .ok tb =>
          rw [hb] at h
          simp only [Except.ok.injEq, Prod.mk.injEq] at h
          refine ⟨b, ?_, ?_⟩
          · rw [h.1]
          · rw [hb]; exact congrArg Except.ok h.2
  · rintro ⟨tl, rfl, htl⟩
    rw [read_lock_info_two, htl]

theorem is_stale_some {c : List LockLine} {now : Int} :
    is_stale (some c) now =
      (match read_lock_info c with
       | .ok (_, ts) => decide (now - ts > lock_timeout_seconds)
       | .error _ => true) := rfl

theorem is_stale_false_iff {c : List LockLine} {now : Int} :
    is_stale (some c) now = false ↔ freshWellFormed c now := by
  constructor
  · intro h
    rw [is_stale_some] at h
    match hread : read_lock_info c with
    | .ok (q, ts) =>
      obtain ⟨tl, hc, htl⟩ := read_lock_info_ok.mp hread
      refine ⟨q, tl, ts, hc, htl, ?_⟩
      rw [hread] at h
      simp only [decide_eq_false_iff_not, not_lt] at h
      exact h
    | .error e =>
      rw [hread] at h
      simp at h
  · rintro ⟨q, tl, t, rfl, htl, hage⟩
    have hread : read_lock_info [.intNum q, tl] = .ok (q, t) :=
      read_lock_info_ok.mpr ⟨tl, rfl, htl⟩
    rw [is_stale_some, hread]
    simpa using hage

theorem acquire_lock_some {c : List LockLine} {pid now : Int} :
    acquire_lock (some c) pid now =
      (if is_stale (some c) now then
        match release_lock (some c) pid now true with
        | .ok c2 => ((.error .timeoutError : PyResult Unit), c2)
        | .error e => (.error e, some c)
      else (.error .timeoutError, some c)) := rfl

/-- C9: calling `acquire_lock` while the lock file exists always raises
`TimeoutError`; the existing lock is removed exactly when it is stale
(older than the 60-second timeout) or corrupt (wrong line count or
non-numeric fields), and is left untouched when it is fresh and
well formed. -/
theorem c9_acquire_collision (c : List LockLine) (pid now : Int) :
    (acquire_lock (some c) pid now).1 = .error .timeoutError ∧
      (¬ freshWellFormed c now → (acquire_lock (some c) pid now).2 = none) ∧
      (freshWellFormed c now → (acquire_lock (some c) pid now).2 = some c) := by
  have hrel : release_lock (some c) pid now true = .ok none := by
    unfold release_lock
    rw [if_pos (by simp)]
  refine ⟨?_, ?_, ?_⟩
  · rcases Bool.eq_false_or_eq_true (is_stale (some c) now) with h | h
    · simp [acquire_lock_some, h, hrel]
    · simp [acquire_lock_some, h]
  · intro hforce
    have hstale : is_stale (some c) now = true := by
      rcases Bool.eq_false_or_eq_true (is_stale (some c) now) with h | h
      · exact h
      · exact absurd (is_stale_false_iff.mp h) hforce
    simp [acquire_lock_some, hstale, hrel]
  · intro hfresh
    simp [acquire_lock_some, is_stale_false_iff.mpr hfresh]

/-- C9 witness: a fresh well-formed lock survives the failed acquire; a
corrupt one-line lock is removed. -/
theorem c9_acquire_collision_witness :
    (acquire_lock (some [.intNum 7, .floatNum 100]) 9 120).2 =
        some [.intNum 7, .floatNum 100] ∧
      (acquire_lock (some [.nonNumeric]) 9 0).2 = none ∧
      (acquire_lock (some [.intNum 7, .floatNum 10]) 9 120).2 = none :=
  ⟨(c9_acquire_collision [.intNum 7, .floatNum 100] 9 120).2.2
      ⟨7, .floatNum 100, 100, rfl, rfl, by decide⟩,
    (c9_acquire_collision [.nonNumeric] 9 0).2.1
      (by rintro ⟨p, tl, t, hc, -, -⟩; exact absurd hc (by simp)),
    (c9_acquire_collision [.intNum 7, .floatNum 10] 9 120).2.1
      (by
        rintro ⟨p, tl, t, hc, htl, hage⟩
        simp only [List.cons.injEq, and_true] at hc
        obtain ⟨h1, h2⟩ := hc
        rw [← h2] at htl
        simp only [parse_float_line, Except.ok.injEq] at htl
        have h60 : lock_timeout_seconds = (60 : Int) := rfl
        rw [h60] at hage
        omega)⟩

/-! ### HashFile (`pathing.py`, class `HashFile`) -/

/-- `HashFile.byte_chunk_size = 8192`: the streaming block size. -/
def byte_chunk_size : Nat := 8192

/-- `HashFile.compute_hash` (`pathing.py` lines 83-102).  The method does
`try: return self.hash_value / except NameError: recompute`.  On an
instance whose cache is unset, reading `self.hash_value` raises
`AttributeError`; the handler is written for `NameError`, so it never
fires and the exception escapes - the recompute branch is dead code. -/
def compute_hash (cached : Option String) : PyResult String :=
  match cached with
  | some v => .ok v
  | none => .error .attributeError

/-- `HashFile.write_hash_to_file` (`pathing.py` lines 35-50).  The sibling
state is `some digest` when the `.sha256` file exists.  No caller in the
metadata write path ever invokes this. -/
def write_hash_to_file (sibling : Option String) (hash_value : String)
    (overwrite_hashfile : Bool) : PyResult (Option String) :=
  if sibling.isSome && !overwrite_hashfile then .error .fileExists
  else .ok (some hash_value)

/-- `HashFile.verify_file` (`pathing.py` lines 58-73): false unless both
the `.sha256` sibling and the target exist; otherwise compare the stored
digest against `compute_hash` (via `__eq__`), catching only `OSError` and
`ValueError` - the `AttributeError` escaping `compute_hash` propagates. -/
def verify_file (hashExists targetExists : Bool) (storedHash : String)
    (cached : Option String) : PyResult Bool :=
  if !hashExists || !targetExists then .ok false
  else
    match compute_hash cached with
    | .ok v => .ok (v == storedHash.trim)
    | .error e =>
      if e = .osError || e = .valueError then .ok false else .error e

/-- C5 (code bug): the first `compute()` on any `HashFile` instance raises
`AttributeError` instead of returning the streamed SHA-256 digest: the
cache read `self.hash_value` raises `AttributeError`, which the
`except NameError` handler does not catch.  This also contradicts
`test_storage.py::TestPathing.test_hash_file`, which expects a string. -/
theorem c5_compute_hash_raises : compute_hash none = .error .attributeError := rfl

/-! ### String-keyed dictionaries (Python `dict` on path / name keys) -/

def dictGet? {α : Type} : List (String × α) → String → Option α
  | [], _ => none
  | (k, v) :: rest, key => if k = key then some v else dictGet? rest key

def dictHas {α : Type} (d : List (String × α)) (k : String) : Bool :=
  (dictGet? d k).isSome

/-- Python `d[k] = v` / `d |= {k: v}`: replace in place, else append. -/
def dictSet {α : Type} : List (String × α) → String → α → List (String × α)
  | [], k, v => [(k, v)]
  | (k1, v1) :: rest, k, v =>
    if k1 = k then (k, v) :: rest else (k1, v1) :: dictSet rest k v

/-- `Path.unlink(missing_ok=True)` on a keyed file set. -/
def dictDel {α : Type} (d : List (String × α)) (k : String) : List (String × α) :=
  d.filter (fun p => decide (p.1 ≠ k))

theorem dictGet?_set_self {α : Type} (d : List (String × α)) (k : String) (v : α) :
    dictGet? (dictSet d k v) k = some v := by
  induction d with
  | nil => simp [dictSet, dictGet?]
  | cons p rest ih =>
    obtain ⟨k1, v1⟩ := p
    unfold dictSet
    split
    · simp [dictGet?]
    next hne => simp [dictGet?, hne, ih]

theorem dictGet?_set_ne {α : Type} (d : List (String × α)) {k k2 : String} (v : α)
    (h : k2 ≠ k) : dictGet? (dictSet d k v) k2 = dictGet? d k2 := by
  induction d with
  | nil => simp [dictSet, dictGet?, Ne.symm h]
  | cons p rest ih =>
    obtain ⟨k1, v1⟩ := p
    unfold dictSet
    split
    next heq =>
      subst heq
      simp [dictGet?, Ne.symm h]
    next hne =>
      by_cases hk : k1 = k2
      · subst hk
        simp [dictGet?]
      · simp [dictGet?, hk, ih]

theorem dictSet_absent {α : Type} {d : List (String × α)} {k : String} (v : α)
    (h : dictGet? d k = none) : dictSet d k v = d ++ [(k, v)] := by
  induction d with
  | nil => simp [dictSet]
  | cons p rest ih =>
    obtain ⟨k1, v1⟩ := p
    unfold dictGet? at h
    split at h
    · exact absurd h (by simp)
    next hne => simp [dictSet, hne, ih h]

theorem dictDel_set_absent {α : Type} {d : List (String × α)} {k : String} (v : α)
    (h : dictGet? d k = none) : dictDel (dictSet d k v) k = d := by
  rw [dictSet_absent v h]
  unfold dictDel
  rw [List.filter_append]
  have h2 : List.filter (fun p => decide (p.1 ≠ k)) [(k, v)] = [] := by simp
  rw [h2, List.append_nil]
  induction d with
  | nil => rfl
  | cons p rest ih =>
    obtain ⟨k1, v1⟩ := p
    unfold dictGet? at h
    split at h
    · exact absurd h (by simp)
    next hne =>
      simp only [List.filter_cons, decide_eq_true_eq]
      rw [if_pos (by simpa using hne)]
      rw [ih h]

theorem dictGet?_append {α : Type} (d1 d2 : List (String × α)) (k : String) :
    dictGet? (d1 ++ d2) k =
      match dictGet? d1 k with
      | some v => some v
      | none => dictGet? d2 k := by
  induction d1 with
  | nil => simp [dictGet?]
  | cons p rest ih =>
    obtain ⟨k1, v1⟩ := p
    by_cases hk : k1 = k
    · subst hk
      simp [dictGet?]
    · simpa [dictGet?, hk] using ih

/-! ### Metadata documents (`manager.py` save dict, `metadata_io.py`) -/

/-- One chunked shard archive: chunk name to integer array, in insertion
order (`numpy.savez_compressed` keyword order). -/
abbrev ChunkDict := List (String × List Int)

/-- The per-shard record merged into the metadata document
(`ShardManager._prepare_shard_metadata`, `manager.py` lines 371-394). -/
structure ShardRecord where
  prime_interval : Int × Int
  shard_index : Int
  chunk_count : Int
  chunkMeta : List (String × (Int × Int))
deriving DecidableEq

/-- The metadata document built by `ShardManager.save` (`manager.py`
lines 210-233): the reserved fields plus one record per shard path. -/
structure MetadataDoc where
  chunk_size : Int
  shard_size : Int
  itemsize : Int
  total_bytes : Int
  total_primes : Int
  shard_paths : List String
  config : PartitionPlan
  total_chunks : Int
  total_shards : Int
  shardRecords : List (String × ShardRecord)
deriving DecidableEq

/-- Python `current | metadata` on the shard-record keys: keys of
`current` first (values replaced by `metadata`-side values when present),
then the `metadata`-only keys in order. -/
def pyDictMerge {α : Type} (old new : List (String × α)) : List (String × α) :=
  old.map (fun p =>
    match dictGet? new p.1 with
    | some v => (p.1, v)
    | none => p) ++
    new.filter (fun q => !(dictHas old q.1))

/-- `updated_data = current_metadata | metadata` (`metadata_io.py` line
106): every reserved key is present on the new side, so reserved fields
come from `new`; shard records merge keywise. -/
def mergeDocs (old new : MetadataDoc) : MetadataDoc :=
  { new with shardRecords := pyDictMerge old.shardRecords new.shardRecords }

/-- The filesystem and process state the storage subsystem touches.  Lock
and hash files are keyed by the path of the file they guard (the
`.lock` / `.sha256` suffix substitution is injective on these paths). -/
structure Store where
  shardFiles : List (String × ChunkDict)
  metadataFiles : List (String × MetadataDoc)
  locks : List (String × List LockLine)
  hashFiles : List (String × String)
  pid : Int
  now : Int
deriving DecidableEq

/-- `HashFile(path).verify_file()` as `MetadataFile` calls it: the
instance is fresh (or its only `compute_hash` attempts raised), so the
cache is always unset. -/
def hash_verify_at (st : Store) (path : String) : PyResult Bool :=
  verify_file (dictHas st.hashFiles path) (dictHas st.metadataFiles path)
    ((dictGet? st.hashFiles path).getD "") none

/-- `MetadataFile.read` (`metadata_io.py` lines 25-85).  Every raised
exception is caught and turned into an empty mapping (`none`), except the
`AttributeError` escaping `hash.verify_file()` when both the metadata
file and its `.sha256` sibling exist - that class is absent from both
`except` clauses, so it propagates. -/
def metadata_read (st : Store) (path : String) (ignore_lock : Bool) :
    PyResult (Option MetadataDoc) :=
  if dictHas st.locks path && !ignore_lock then .ok none
  else
    match hash_verify_at st path with
    | .error e => .error e
    | .ok _ =>
      match dictGet? st.metadataFiles path with
      | none => .ok none
      | some doc => .ok (some doc)

/-- `MetadataFile.write` (`metadata_io.py` lines 87-123).  The
`try/finally` always runs `self.lock.release_lock()`; an exception raised
by the release masks the body exception.  Note line 118: the body calls
`self.hash.verify_file()` and discards the result - nothing ever writes
the `.sha256` sibling. -/
def metadata_write (st : Store) (path : String) (m : Option MetadataDoc)
    (overwrite : Bool) : PyResult Store :=
  match acquire_lock (dictGet? st.locks path) st.pid st.now with
  | (.error e, lockAfter) =>
    match release_lock lockAfter st.pid st.now false with
    | .error e2 => .error e2
    | .ok _ => .error e
  | (.ok _, lockAfter) =>
    let st1 : Store := { st with locks := dictSet st.locks path (lockAfter.getD []) }
    match (if overwrite then (.ok none : PyResult (Option MetadataDoc))
           else metadata_read st1 path true) with
    | .error e =>
      match release_lock (dictGet? st1.locks path) st.pid st.now false with
      | .error e2 => .error e2
      | .ok _ => .error e
    | .ok current =>
      match m with
      | none =>
        match release_lock (dictGet? st1.locks path) st.pid st.now false with
        | .error e2 => .error e2
        | .ok _ => .error .valueError
      | some doc =>
        let updated :=
          match current with
          | none => doc
          | some old => mergeDocs old doc
        let st2 : Store :=
          { st1 with metadataFiles := dictSet st1.metadataFiles path updated }
        match hash_verify_at st2 path with
        | .error e =>
          match release_lock (dictGet? st2.locks path) st.pid st.now false with
          | .error e2 => .error e2
          | .ok _ => .error e
        | .ok _ =>
          match release_lock (dictGet? st2.locks path) st.pid st.now false with
          | .error e2 => .error e2
          | .ok lockFinal =>
            .ok { st2 with locks :=
              match lockFinal with
              | none => dictDel st2.locks path
              | some c => dictSet st2.locks path c }

theorem verify_lock_file_some {c : List LockLine} {pid now : Int} :
    verify_lock_file (some c) pid now =
      (match read_lock_info c with
       | .ok (p, ts) => decide (p = pid) && decide (now - ts < lock_timeout_seconds)
       | .error _ => false) := rfl

theorem verify_own_fresh (pid now : Int) :
    verify_lock_file (some [.intNum pid, .floatNum now]) pid now = true := by
  rw [verify_lock_file_some]
  rw [show read_lock_info [LockLine.intNum pid, LockLine.floatNum now] =
    .ok (pid, now) from rfl]
  simp [lock_timeout_seconds]

theorem release_own_fresh (pid now : Int) :
    release_lock (some [.intNum pid, .floatNum now]) pid now false = .ok none := by
  unfold release_lock
  rw [if_pos (by rw [verify_own_fresh]; simp)]

theorem hash_verify_at_nohash {st : Store} {path : String}
    (h : dictGet? st.hashFiles path = none) : hash_verify_at st path = .ok false := by
  unfold hash_verify_at verify_file
  rw [show dictHas st.hashFiles path = false from by simp [dictHas, h]]
  simp

theorem metadata_read_ignore {st : Store} {path : String}
    (hh : dictGet? st.hashFiles path = none) :
    metadata_read st path true = .ok (dictGet? st.metadataFiles path) := by
  unfold metadata_read
  rw [show (dictHas st.locks path && !true) = false from by simp]
  rw [if_neg (by simp)]
  rw [hash_verify_at_nohash hh]
  rcases h : dictGet? st.metadataFiles path with _ | doc <;> simp

/-- The merged document `metadata_write` stores for a given prior
content. -/
def writtenDoc (current : Option MetadataDoc) (doc : MetadataDoc) : MetadataDoc :=
  match current with
  | none => doc
  | some old => mergeDocs old doc

/-- Successful `MetadataFile.write` on a path whose lock and hash files
are absent: the lock is taken and released again (net unchanged), the
document is merged over the current content, and no `.sha256` file ever
appears. -/
theorem metadata_write_fresh {st : Store} {path : String} (doc : MetadataDoc)
    (ow : Bool)
    (hlock : dictGet? st.locks path = none)
    (hhash : dictGet? st.hashFiles path = none) :
    metadata_write st path (some doc) ow =
      .ok { st with
        metadataFiles := dictSet st.metadataFiles path
          (writtenDoc (if ow then none else dictGet? st.metadataFiles path) doc) } := by
  have hacq : acquire_lock (dictGet? st.locks path) st.pid st.now =
      ((.ok () : PyResult Unit), some [.intNum st.pid, .floatNum st.now]) := by
    rw [hlock]; rfl
  have hget : dictGet? (dictSet st.locks path
        [LockLine.intNum st.pid, LockLine.floatNum st.now]) path =
      some [LockLine.intNum st.pid, LockLine.floatNum st.now] := dictGet?_set_self _ _ _
  have hdel : dictDel (dictSet st.locks path
        [LockLine.intNum st.pid, LockLine.floatNum st.now]) path =
      st.locks := dictDel_set_absent _ hlock
  rcases ow with _ | _ <;>
    simp [metadata_write, hacq, metadata_read_ignore, hash_verify_at_nohash, hhash,
      hget, hdel, release_own_fresh, writtenDoc]

/-- The empty filesystem/process state (fresh store). -/
def emptyStore : Store :=
  { shardFiles := [], metadataFiles := [], locks := [], hashFiles := [],
    pid := 1, now := 0 }

/-- A small concrete metadata document used as a fixture in witnesses. -/
def sampleDoc : MetadataDoc :=
  { chunk_size := 1, shard_size := 1, itemsize := 8, total_bytes := 0,
    total_primes := 0, shard_paths := [], config := ⟨1, 1, 1, 0, 0⟩,
    total_chunks := 0, total_shards := 0, shardRecords := [] }

/-- C2 (code bug): after a successful `MetadataFile.write` the `.sha256`
sibling still does not exist and `HashFile.verify()` returns false, not
true: line 118 of `metadata_io.py` calls `verify_file()` (discarding the
result) where the documented intent is to refresh the hash, and
`write_hash_to_file` is never called anywhere in the write path. -/
theorem c2_write_never_refreshes_hash {st : Store} {path : String}
    (doc : MetadataDoc) (ow : Bool)
    (hlock : dictGet? st.locks path = none)
    (hhash : dictGet? st.hashFiles path = none) :
    ∃ st2, metadata_write st path (some doc) ow = .ok st2 ∧
      dictGet? st2.hashFiles path = none ∧
      hash_verify_at st2 path = .ok false :=
  ⟨_, metadata_write_fresh doc ow hlock hhash, hhash, hash_verify_at_nohash hhash⟩

/-- C2 witness: writing a concrete document to a fresh store leaves no
hash file and a failing verify. -/
theorem c2_write_never_refreshes_hash_witness :
    ∃ st2, metadata_write emptyStore "metadata.json" (some sampleDoc) false = .ok st2 ∧
      dictGet? st2.hashFiles "metadata.json" = none ∧
      hash_verify_at st2 "metadata.json" = .ok false :=
  c2_write_never_refreshes_hash sampleDoc false rfl rfl

/-- A store whose metadata file exists with content and whose lock file
is held by another process. -/
def lockedStore : Store :=
  { emptyStore with
    metadataFiles := [("metadata.json", sampleDoc)],
    locks := [("metadata.json", [.intNum 7, .floatNum 0])] }

/-- C4 counterexample: with the lock file present and `ignore_lock=false`,
`MetadataFile.read` does not raise `Locked` - the `FileExistsError` it
raises internally is caught by its own `except` clause and an empty
mapping is returned. -/
theorem c4_counterexample_read_locked :
    metadata_read lockedStore "metadata.json" false = .ok none := by decide

/-- C4 (amended): for every store whose lock file exists, `read` with
`ignore_lock=false` returns an empty mapping instead of raising. -/
theorem c4_read_locked_returns_empty (st : Store) (path : String)
    (h : dictHas st.locks path = true) :
    metadata_read st path false = .ok none := by
  unfold metadata_read
  rw [if_pos (by simp [h])]

/-- C4 witness: the amended statement at the concrete locked store. -/
theorem c4_read_locked_returns_empty_witness :
    metadata_read lockedStore "metadata.json" false = .ok none :=
  c4_read_locked_returns_empty lockedStore "metadata.json" (by decide)

/-! ### ShardFile (`shard_io.py`, class `ShardFile`) -/

/-- Per-pair checks of `ShardFile.validate` (`shard_io.py` lines 66-70),
in iteration order: empty chunk array first, then empty chunk name. -/
def shard_validate_pairs : ChunkDict → PyResult Unit
  | [] => .ok ()
  | (chunkName, arr) :: rest =>
    if arr.isEmpty then .error .valueError
    else if chunkName = "" then .error .valueError
    else shard_validate_pairs rest

/-- `ShardFile.validate` (`shard_io.py` lines 59-70). -/
def shard_validate (chunk_dict : ChunkDict) : PyResult Unit :=
  if chunk_dict.isEmpty then .error .valueError
  else shard_validate_pairs chunk_dict

/-- `ShardFile.write` (`shard_io.py` lines 40-52): validate, refuse an
existing file unless `overwrite`, delete under `overwrite`, then write the
compressed archive. -/
def shardfile_write (st : Store) (path : String) (chunk_dict : ChunkDict)
    (overwrite : Bool) : PyResult Store :=
  match shard_validate chunk_dict with
  | .error e => .error e
  | .ok _ =>
    if dictHas st.shardFiles path && !overwrite then .error .fileExists
    else if overwrite then
      .ok { st with shardFiles := dictDel st.shardFiles path ++ [(path, chunk_dict)] }
    else .ok { st with shardFiles := st.shardFiles ++ [(path, chunk_dict)] }

/-- `ShardFile.read` (`shard_io.py` lines 27-38): concatenate all chunks
in archive order, sort, deduplicate. -/
def shardfile_read (st : Store) (path : String) : PyResult (List Int) :=
  match dictGet? st.shardFiles path with
  | none => .error .fileNotFound
  | some d => .ok (npUnique (d.map Prod.snd).flatten)

/-! ### ShardManager.save (`manager.py` lines 186-255) -/

/-- Python `l[0]`: `IndexError` on an empty sequence. -/
def pyIdx0 {α : Type} (l : List α) : PyResult α :=
  match l.head? with
  | some x => .ok x
  | none => .error .indexError

/-- Python `l[-1]`: `IndexError` on an empty sequence. -/
def pyIdxLast {α : Type} (l : List α) : PyResult α :=
  match l.getLast? with
  | some x => .ok x
  | none => .error .indexError

/-- The chunk views of one shard slice:
`[shard_data[i : i + ipc] for i in range(0, size, ipc)]` (`manager.py`
lines 363-367).  `range` raises `ValueError` on a zero step and is empty
on a negative step; `items_per_chunk` is never negative on reachable
plans, so `toNat` is faithful there. -/
def shard_chunks (shard_data : List Int) (ipc : Int) : PyResult (List (List Int)) :=
  if ipc = 0 then .error .valueError
  else if ipc < 0 then .ok []
  else .ok ((List.range (natCeil shard_data.length ipc.toNat)).map
      (fun j => pySlice shard_data (j * ipc.toNat) (j * ipc.toNat + ipc.toNat)))

/-- The chunk-name map of `_prepare_shard_metadata` (`manager.py` lines
386-392): a dict comprehension keyed by `_generate_name([c[0], c[-1]])`. -/
def chunk_meta_aux (acc : List (String × (Int × Int))) :
    List (List Int) → PyResult (List (String × (Int × Int)))
  | [] => .ok acc
  | c :: rest =>
    match pyIdx0 c with
    | .error e => .error e
    | .ok a =>
      match pyIdxLast c with
      | .error e => .error e
      | .ok b => chunk_meta_aux (dictSet acc (generate_name_listarg [a, b]) (a, b)) rest

/-- `ShardManager._prepare_shard_metadata` (`manager.py` lines 371-394). -/
def prepare_shard_metadata (shard_idx : Nat) (chunks : List (List Int)) :
    PyResult ShardRecord :=
  match pyIdx0 chunks with
  | .error e => .error e
  | .ok c0 =>
    match pyIdxLast chunks with
    | .error e => .error e
    | .ok cl =>
      match pyIdx0 c0 with
      | .error e => .error e
      | .ok mn =>
        match pyIdxLast cl with
        | .error e => .error e
        | .ok mx =>
          match chunk_meta_aux [] chunks with
          | .error e => .error e
          | .ok cm =>
            .ok { prime_interval := (mn, mx), shard_index := shard_idx,
                  chunk_count := chunks.length, chunkMeta := cm }

/-- The `shard_dict` built per shard (`manager.py` lines 248-251), keyed
by `_generate_name(chunk[0], chunk[-1])`. -/
def build_shard_dict (acc : ChunkDict) : List (List Int) → PyResult ChunkDict
  | [] => .ok acc
  | c :: rest =>
    match pyIdx0 c with
    | .error e => .error e
    | .ok a =>
      match pyIdxLast c with
      | .error e => .error e
      | .ok b => build_shard_dict (dictSet acc (generate_name2 a b) c) rest

/-- The body of `for shard_idx, chunks in self._partitions(primes, plan)`
(`manager.py` lines 235-253), iterated over the shard indices.
`items_per_shard` is nonnegative on every reachable plan, so the `toNat`
slice bounds coincide with the Python slice. -/
def save_loop (primes : List Int) (p : PartitionPlan) (ow : Bool) :
    Store → MetadataDoc → List Nat → PyResult (Store × MetadataDoc)
  | st, doc, [] => .ok (st, doc)
  | st, doc, idx :: rest =>
    match shard_chunks (pySlice primes (idx * p.items_per_shard.toNat)
        ((idx + 1) * p.items_per_shard.toNat)) p.items_per_chunk with
    | .error e => .error e
    | .ok chunks =>
      let path := shard_path_name idx p.total_shards
      let doc1 := { doc with shard_paths := doc.shard_paths ++ [path] }
      match prepare_shard_metadata idx chunks with
      | .error e => .error e
      | .ok record =>
        let doc2 := { doc1 with shardRecords := dictSet doc1.shardRecords path record }
        match build_shard_dict [] chunks with
        | .error e => .error e
        | .ok sdict =>
          match shardfile_write st path sdict ow with
          | .error e => .error e
          | .ok st2 => save_loop primes p ow st2 doc2 rest

/-- `ShardManager.save` (`manager.py` lines 186-255).  `itemsize` is the
numpy element width `primes.itemsize`. -/
def shard_manager_save (st : Store) (primes_array : Option (List Int))
    (metadata_path : String) (itemsize : Int)
    (target_total_shard_count target_chunk_count_per_shard : Option Int)
    (shard_byte_size chunk_byte_size : Int)
    (overwrite_shards overwrite_metadata : Bool) : PyResult Store :=
  match primes_array with
  | none => .error .valueError
  | some arr =>
    let primes := npUnique arr
    let total : Int := primes.length
    match calculate_plan total itemsize target_total_shard_count
        target_chunk_count_per_shard (some shard_byte_size) (some chunk_byte_size) with
    | .error e => .error e
    | .ok plan =>
      let doc0 : MetadataDoc :=
        { chunk_size := chunk_byte_size, shard_size := shard_byte_size,
          itemsize := itemsize, total_bytes := total * itemsize,
          total_primes := total, shard_paths := [], config := plan,
          total_chunks := plan.total_chunks, total_shards := plan.total_shards,
          shardRecords := [] }
      match save_loop primes plan overwrite_shards st doc0
          (List.range plan.total_shards.toNat) with
      | .error e => .error e
      | .ok (st2, doc) => metadata_write st2 metadata_path (some doc) overwrite_metadata

/-! ### ShardManager.load (`manager.py` lines 257-302) -/

/-- Python `min or 0` (`0` is falsy, so it maps to the default too). -/
def pyOrInt (x : Option Int) (d : Int) : Int :=
  match x with
  | some v => if v = 0 then d else v
  | none => d

/-- Python `max or float("inf")`: `none` models the infinite bound. -/
def pyOrInf (x : Option Int) : Option Int :=
  match x with
  | some v => if v = 0 then none else some v
  | none => none

/-- `a < b` where `b` may be `float("inf")`. -/
def lt_inf (a : Int) (b : Option Int) : Bool :=
  match b with
  | none => true
  | some v => decide (a < v)

/-- `interval_intersection` (`manager.py` lines 264-285): reject empty or
reversed request and partition intervals, then
`rmin < pmax and pmin < rmax`. -/
def interval_intersection (rminmax : Int × Option Int) (pminmax : Int × Int) :
    PyResult Bool :=
  if !(lt_inf rminmax.1 rminmax.2) then .error .valueError
  else if !(decide (pminmax.1 < pminmax.2)) then .error .valueError
  else .ok (decide (rminmax.1 < pminmax.2) && lt_inf pminmax.1 rminmax.2)

/-- The shard-path loop of `load` (`manager.py` lines 294-300). -/
def load_loop (st : Store) (doc : MetadataDoc) (interval : Int × Option Int) :
    List (List Int) → List String → PyResult (List (List Int))
  | acc, [] => .ok acc
  | acc, path :: rest =>
    match dictGet? doc.shardRecords path with
    | none => .error .keyError
    | some record =>
      match interval_intersection interval record.prime_interval with
      | .error e => .error e
      | .ok b =>
        if b then
          match shardfile_read st path with
          | .error e => .error e
          | .ok arr => load_loop st doc interval (acc ++ [arr]) rest
        else load_loop st doc interval acc rest

/-- `ShardManager.load` (`manager.py` lines 257-302): read the metadata
(`Locked`, corrupt and missing files all surface as an empty mapping,
which raises `ValueError` here), filter the shards by interval
intersection, concatenate (`numpy.concatenate` raises on an empty list),
sort, deduplicate. -/
def shard_manager_load (st : Store) (min? max? : Option Int)
    (metadata_path : String) : PyResult (List Int) :=
  let interval : Int × Option Int := (pyOrInt min? 0, pyOrInf max?)
  match metadata_read st metadata_path false with
  | .error e => .error e
  | .ok none => .error .valueError
  | .ok (some doc) =>
    match load_loop st doc interval [] doc.shard_paths with
    | .error e => .error e
    | .ok collected =>
      if collected.isEmpty then .error .valueError
      else .ok (npUnique collected.flatten)

example :
    (do
      let st ← shard_manager_save emptyStore
        (some [2, 3, 5, 7, 11, 13, 17, 19, 23, 29]) "m.json" 8
        (some 3) (some 2) 100 100 false false
      shard_manager_load st none none "m.json") =
      .ok [2, 3, 5, 7, 11, 13, 17, 19, 23, 29] := by decide

example :
    (do
      let st ← shard_manager_save emptyStore (some [2, 3, 5]) "m.json" 8
        (some 3) (some 2) 100 100 false false
      shard_manager_load st none none "m.json") = .error .valueError := by decide

/-! ### Facts about sorted slices, used to characterise save and load -/

theorem mem_of_getLast? {α : Type} : ∀ {l : List α} {b : α}, l.getLast? = some b → b ∈ l
  | [], b, h => by simp at h
  | [a], b, h => by
    simp only [List.getLast?_singleton, Option.some.injEq] at h
    simp [h]
  | a :: a2 :: t, b, h => by
    rw [List.getLast?_cons_cons] at h
    exact List.mem_cons_of_mem a (mem_of_getLast? h)

theorem sorted_head?_le {l : List Int} (hs : l.Sorted (· < ·)) {a : Int}
    (ha : l.head? = some a) : ∀ x ∈ l, a ≤ x := by
  match l with
  | [] => simp at ha
  | c :: t =>
    simp only [List.head?_cons, Option.some.injEq] at ha
    subst ha
    intro x hx
    rcases List.mem_cons.mp hx with rfl | hx
    · exact le_refl x
    · exact le_of_lt ((List.pairwise_cons.mp hs).1 x hx)

theorem sorted_le_getLast? {l : List Int} (hs : l.Sorted (· < ·)) {b : Int}
    (hb : l.getLast? = some b) : ∀ x ∈ l, x ≤ b := by
  induction l with
  | nil => simp at hb
  | cons c t ih =>
    intro x hx
    match t with
    | [] =>
      simp only [List.getLast?_singleton, Option.some.injEq] at hb
      simp only [List.mem_singleton] at hx
      omega
    | d :: t2 =>
      rw [List.getLast?_cons_cons] at hb
      rcases List.mem_cons.mp hx with rfl | hx
      · have hbmem : b ∈ d :: t2 := mem_of_getLast? hb
        exact le_of_lt ((List.pairwise_cons.mp hs).1 b hbmem)
      · exact ih (List.pairwise_cons.mp hs).2 hb x hx

theorem sorted_head_lt_getLast {l : List Int} (hs : l.Sorted (· < ·))
    (hlen : 2 ≤ l.length) {a b : Int} (ha : l.head? = some a)
    (hb : l.getLast? = some b) : a < b := by
  match l with
  | c :: d :: t =>
    simp only [List.head?_cons, Option.some.injEq] at ha
    subst ha
    rw [List.getLast?_cons_cons] at hb
    exact (List.pairwise_cons.mp hs).1 b (mem_of_getLast? hb)

theorem head?_take {l : List Int} {n : Nat} (hn : 1 ≤ n) :
    (l.take n).head? = l.head? := by
  match l, n with
  | [], _ => simp
  | c :: t, m + 1 => simp [List.take_succ_cons]

theorem flatten_getLast? {α : Type} :
    ∀ {cs : List (List α)} {c : List α}, cs.getLast? = some c → c ≠ [] →
      cs.flatten.getLast? = c.getLast? := by
  intro cs
  induction cs with
  | nil => intro c h; simp at h
  | cons a rest ih =>
    intro c h hne
    match rest with
    | [] =>
      simp only [List.getLast?_singleton, Option.some.injEq] at h
      subst h
      simp
    | b :: rest2 =>
      rw [List.getLast?_cons_cons] at h
      have htail := ih h hne
      have hmem : c ∈ b :: rest2 := mem_of_getLast? h
      have hflat : (b :: rest2).flatten ≠ [] := by
        intro hnil
        obtain ⟨x, hx⟩ := List.exists_mem_of_ne_nil c hne
        have : x ∈ (b :: rest2).flatten := List.mem_flatten.mpr ⟨c, hmem, hx⟩
        rw [hnil] at this
        simp at this
      rw [List.flatten_cons, List.getLast?_append]
      rcases hlast : (b :: rest2).flatten.getLast? with _ | y
      · exact absurd (List.getLast?_eq_none_iff.mp hlast) hflat
      · rw [hlast] at htail
        simp [Option.or, htail]

theorem pySlice_subset {l : List Int} {a b : Nat} : pySlice l a b ⊆ l :=
  ((List.take_sublist _ _).trans (List.drop_sublist _ _)).subset

/-! ### Characterisation of the shard layout produced by `save` -/

def ipsN (p : PartitionPlan) : Nat := p.items_per_shard.toNat

def ipcN (p : PartitionPlan) : Nat := p.items_per_chunk.toNat

/-- The slice of the normalised array that shard `i` receives. -/
def sliceOf (primes : List Int) (p : PartitionPlan) (i : Nat) : List Int :=
  pySlice primes (i * ipsN p) ((i + 1) * ipsN p)

/-- The chunk views of shard `i`. -/
def chunksOfShard (primes : List Int) (p : PartitionPlan) (i : Nat) : List (List Int) :=
  (List.range (natCeil (sliceOf primes p i).length (ipcN p))).map
    (fun j => pySlice (sliceOf primes p i) (j * ipcN p) (j * ipcN p + ipcN p))

/-- The chunk name `save` generates for a nonempty chunk. -/
def nameOf (c : List Int) : String :=
  generate_name2 (c.head?.getD 0) (c.getLast?.getD 0)

/-- The archive content written for shard `i`. -/
def shardDictOf (primes : List Int) (p : PartitionPlan) (i : Nat) : ChunkDict :=
  (chunksOfShard primes p i).map (fun c => (nameOf c, c))

/-- The metadata record written for shard `i`. -/
def recordOf (primes : List Int) (p : PartitionPlan) (i : Nat) : ShardRecord :=
  { prime_interval := ((sliceOf primes p i).head?.getD 0,
      (sliceOf primes p i).getLast?.getD 0),
    shard_index := i,
    chunk_count := (chunksOfShard primes p i).length,
    chunkMeta := (chunk_meta_aux [] (chunksOfShard primes p i)).toOption.getD [] }

/-- Counting and positivity facts about a successful plan over a nonempty
array. -/
theorem plan_shard_facts {primes : List Int} {p : PartitionPlan} {is : Int}
    {tsc tcps msb mcb : Option Int}
    (hp : calculate_plan (primes.length : Int) is tsc tcps msb mcb = .ok p)
    (hne : primes ≠ []) :
    0 < ipsN p ∧ 0 < ipcN p ∧ 0 < p.total_shards.toNat ∧
      primes.length ≤ p.total_shards.toNat * ipsN p ∧
      (∀ i, i < p.total_shards.toNat → i * ipsN p < primes.length) := by
  have hlen : 0 < primes.length := List.length_pos.mpr hne
  have htot : (0 : Int) < (primes.length : Int) := by exact_mod_cast hlen
  obtain ⟨hips, hipc⟩ := calculate_plan_pos htot hp
  obtain ⟨ipc0, -, -, -, -, hts, -⟩ := calculate_plan_ok hp
  have hipsN : 0 < ipsN p := by
    unfold ipsN
    omega
  have hipcN : 0 < ipcN p := by
    unfold ipcN
    omega
  have htsPos : 0 < p.total_shards := by
    rw [hts]
    exact pyCeil_pos htot hips
  have hcast : (p.total_shards.toNat : Int) = p.total_shards := Int.toNat_of_nonneg (by omega)
  have hcast2 : (ipsN p : Int) = p.items_per_shard := Int.toNat_of_nonneg (by omega)
  have hcover : primes.length ≤ p.total_shards.toNat * ipsN p := by
    have h1 : (primes.length : Int) ≤ p.total_shards * p.items_per_shard := by
      rw [hts]
      exact pyCeil_mul_ge _ hips
    have h2 : (primes.length : Int) ≤ ((p.total_shards.toNat * ipsN p : Nat) : Int) := by
      push_cast
      rw [hcast, hcast2]
      exact h1
    exact_mod_cast h2
  refine ⟨hipsN, hipcN, by omega, hcover, ?_⟩
  intro i hi
  have h3 : (p.total_shards - 1) * p.items_per_shard < (primes.length : Int) := by
    rw [hts]
    exact pyCeil_pred_mul_lt _ hips
  have h4 : ((i * ipsN p : Nat) : Int) < (primes.length : Int) := by
    push_cast
    rw [hcast2]
    calc (i : Int) * p.items_per_shard
        ≤ (p.total_shards - 1) * p.items_per_shard := by
          have : (i : Int) ≤ p.total_shards - 1 := by omega
          exact mul_le_mul_of_nonneg_right this (by omega)
      _ < (primes.length : Int) := h3
  exact_mod_cast h4

/-- `shard_chunks` on a reachable plan returns exactly the chunk views. -/
theorem shard_chunks_eq {primes : List Int} {p : PartitionPlan} (i : Nat)
    (hipc : 0 < p.items_per_chunk) :
    shard_chunks (sliceOf primes p i) p.items_per_chunk =
      .ok (chunksOfShard primes p i) := by
  unfold shard_chunks chunksOfShard
  rw [if_neg (by omega), if_neg (by omega)]
  rfl

/-- The chunks of one shard tile its slice. -/
theorem chunks_flatten {primes : List Int} {p : PartitionPlan} (i : Nat)
    (hipc : 0 < ipcN p) :
    (chunksOfShard primes p i).flatten = sliceOf primes p i := by
  unfold chunksOfShard
  exact tile_flatten hipc _ _ (natCeil_mul_ge hipc)

/-- Every chunk of a shard with a nonempty slice is nonempty, and the
chunk list itself is nonempty. -/
theorem chunks_facts {primes : List Int} {p : PartitionPlan} {i : Nat}
    (hipc : 0 < ipcN p) (hslice : sliceOf primes p i ≠ []) :
    chunksOfShard primes p i ≠ [] ∧ ∀ c ∈ chunksOfShard primes p i, c ≠ [] := by
  have hlen : 0 < (sliceOf primes p i).length := List.length_pos.mpr hslice
  have hm : 0 < natCeil (sliceOf primes p i).length (ipcN p) := natCeil_pos hlen hipc
  constructor
  · unfold chunksOfShard
    simp only [ne_eq, List.map_eq_nil_iff, List.range_eq_nil]
    omega
  · intro c hc
    unfold chunksOfShard at hc
    simp only [List.mem_map, List.mem_range] at hc
    obtain ⟨j, hj, rfl⟩ := hc
    apply pySlice_ne_nil _ (by omega)
    calc j * ipcN p ≤ (natCeil (sliceOf primes p i).length (ipcN p) - 1) * ipcN p :=
          Nat.mul_le_mul_right _ (by omega)
      _ < (sliceOf primes p i).length := natCeil_pred_mul_lt hlen hipc

/-- All shard slices tile the normalised array. -/
theorem slices_flatten {primes : List Int} {p : PartitionPlan}
    (hips : 0 < ipsN p) (hcover : primes.length ≤ p.total_shards.toNat * ipsN p) :
    ((List.range p.total_shards.toNat).map (sliceOf primes p)).flatten = primes := by
  have hfun : sliceOf primes p = fun i => pySlice primes (i * ipsN p) (i * ipsN p + ipsN p) := by
    funext i
    unfold sliceOf
    congr 1
    rw [Nat.succ_mul]
  rw [hfun]
  exact tile_flatten hips _ _ hcover

theorem head_getD_mem {c : List Int} (h : c ≠ []) : c.head?.getD 0 ∈ c := by
  match c with
  | x :: t => simp

theorem getLast_getD_mem {c : List Int} (h : c ≠ []) : c.getLast?.getD 0 ∈ c := by
  have hsome := List.getLast?_isSome.mpr h
  rcases hx : c.getLast? with _ | x
  · rw [hx] at hsome; simp at hsome
  · simpa using mem_of_getLast? hx

theorem chunks_pairwise_lt {primes : List Int} {p : PartitionPlan} {i : Nat}
    (hs : (sliceOf primes p i).Sorted (· < ·)) (hipc : 0 < ipcN p) :
    (chunksOfShard primes p i).Pairwise (fun c d => ∀ x ∈ c, ∀ y ∈ d, x < y) := by
  have hflat := @chunks_flatten primes p i hipc
  have : (chunksOfShard primes p i).flatten.Pairwise (· < ·) := by
    rw [hflat]; exact hs
  exact (List.pairwise_flatten.mp this).2

theorem chunk_names_distinct {primes : List Int} {p : PartitionPlan} {i : Nat}
    (hs : (sliceOf primes p i).Sorted (· < ·)) (hipc : 0 < ipcN p)
    (hall : ∀ c ∈ chunksOfShard primes p i, c ≠ []) :
    (chunksOfShard primes p i).Pairwise (fun c d => nameOf c ≠ nameOf d) := by
  apply List.Pairwise.imp_of_mem ?_ (chunks_pairwise_lt hs hipc)
  intro c d hc hd hlt hname
  have h1 := generate_name2_inj hname
  have hcd : c.head?.getD 0 < d.head?.getD 0 :=
    hlt _ (head_getD_mem (hall c hc)) _ (head_getD_mem (hall d hd))
  omega

theorem dictGet?_singleton_ne {α : Type} {k k2 : String} {v : α} (h : k2 ≠ k) :
    dictGet? [(k, v)] k2 = none := by
  simp [dictGet?, Ne.symm h]

theorem build_shard_dict_append :
    ∀ (chunks : List (List Int)) (acc : ChunkDict),
      (∀ c ∈ chunks, c ≠ []) →
      (∀ c ∈ chunks, dictGet? acc (nameOf c) = none) →
      chunks.Pairwise (fun c d => nameOf c ≠ nameOf d) →
      build_shard_dict acc chunks = .ok (acc ++ chunks.map (fun c => (nameOf c, c))) := by
  intro chunks
  induction chunks with
  | nil => intro acc _ _ _; simp [build_shard_dict]
  | cons c rest ih =>
    intro acc hne hfresh hdist
    have hc : c ≠ [] := hne c (by simp)
    obtain ⟨a, ha⟩ : ∃ a, c.head? = some a := by
      match c with
      | x :: t => exact ⟨x, rfl⟩
    obtain ⟨b, hb⟩ : ∃ b, c.getLast? = some b := by
      have hsome := List.getLast?_isSome.mpr hc
      rcases hx : c.getLast? with _ | x
      · rw [hx] at hsome; simp at hsome
      · exact ⟨x, rfl⟩
    have hname : generate_name2 a b = nameOf c := by
      unfold nameOf
      rw [ha, hb]
      rfl
    have hfresh2 : ∀ d ∈ rest, dictGet? (acc ++ [(nameOf c, c)]) (nameOf d) = none := by
      intro d hd
      rw [dictGet?_append, hfresh d (by simp [hd])]
      exact dictGet?_singleton_ne (Ne.symm ((List.pairwise_cons.mp hdist).1 d hd))
    have hstep := ih (acc ++ [(nameOf c, c)]) (fun d hd => hne d (by simp [hd])) hfresh2
      (List.pairwise_cons.mp hdist).2
    simp only [build_shard_dict,
      show pyIdx0 c = .ok a from by unfold pyIdx0; rw [ha],
      show pyIdxLast c = .ok b from by unfold pyIdxLast; rw [hb],
      hname, dictSet_absent c (hfresh c (by simp)), hstep]
    simp

theorem chunk_meta_aux_isOk :
    ∀ (chunks : List (List Int)), (∀ c ∈ chunks, c ≠ []) →
      ∀ acc, ∃ v, chunk_meta_aux acc chunks = .ok v := by
  intro chunks
  induction chunks with
  | nil => intro _ acc; exact ⟨acc, rfl⟩
  | cons c rest ih =>
    intro hne acc
    have hc : c ≠ [] := hne c (by simp)
    obtain ⟨a, ha⟩ : ∃ a, c.head? = some a := by
      match c with
      | x :: t => exact ⟨x, rfl⟩
    obtain ⟨b, hb⟩ : ∃ b, c.getLast? = some b := by
      have hsome := List.getLast?_isSome.mpr hc
      rcases hx : c.getLast? with _ | x
      · rw [hx] at hsome; simp at hsome
      · exact ⟨x, rfl⟩
    obtain ⟨v, hv⟩ := ih (fun d hd => hne d (by simp [hd]))
      (dictSet acc (generate_name_listarg [a, b]) (a, b))
    refine ⟨v, ?_⟩
    simp only [chunk_meta_aux,
      show pyIdx0 c = .ok a from by unfold pyIdx0; rw [ha],
      show pyIdxLast c = .ok b from by unfold pyIdxLast; rw [hb]]
    exact hv

/-- On a nonempty slice, `_prepare_shard_metadata` returns exactly the
characterised record. -/
theorem prepare_shard_metadata_eq {primes : List Int} {p : PartitionPlan} {i : Nat}
    (hipc : 0 < ipcN p) (hslice : sliceOf primes p i ≠ []) :
    prepare_shard_metadata i (chunksOfShard primes p i) = .ok (recordOf primes p i) := by
  obtain ⟨hcne, hall⟩ := chunks_facts hipc hslice
  have hlen : 0 < (sliceOf primes p i).length := List.length_pos.mpr hslice
  obtain ⟨m', hm'⟩ : ∃ m', natCeil (sliceOf primes p i).length (ipcN p) = m' + 1 :=
    ⟨natCeil (sliceOf primes p i).length (ipcN p) - 1,
      by have := natCeil_pos hlen hipc; omega⟩
  have hhead : (chunksOfShard primes p i).head? =
      some (pySlice (sliceOf primes p i) 0 (ipcN p)) := by
    unfold chunksOfShard
    rw [hm', List.range_succ_eq_map]
    simp [pySlice]
  have hlast : (chunksOfShard primes p i).getLast? =
      some (pySlice (sliceOf primes p i) (m' * ipcN p) (m' * ipcN p + ipcN p)) := by
    unfold chunksOfShard
    rw [hm', List.range_succ, List.map_append, List.getLast?_append]
    simp
  obtain ⟨c0, hc0⟩ : ∃ c0, (chunksOfShard primes p i).head? = some c0 := ⟨_, hhead⟩
  obtain ⟨cl, hcl⟩ : ∃ cl, (chunksOfShard primes p i).getLast? = some cl := ⟨_, hlast⟩
  have hc0v : c0 = pySlice (sliceOf primes p i) 0 (ipcN p) := by
    rw [hhead] at hc0; exact (Option.some.injEq _ _ ▸ hc0.symm)
  have hclv : cl = pySlice (sliceOf primes p i) (m' * ipcN p) (m' * ipcN p + ipcN p) := by
    rw [hlast] at hcl; exact (Option.some.injEq _ _ ▸ hcl.symm)
  have hc0head : c0.head? = (sliceOf primes p i).head? := by
    rw [hc0v]
    unfold pySlice
    simp only [List.drop_zero, Nat.sub_zero]
    exact head?_take hipc
  have hclne : cl ≠ [] := hall cl (mem_of_getLast? hcl)
  have hcllast : cl.getLast? = (sliceOf primes p i).getLast? := by
    have := flatten_getLast? hcl hclne
    rw [chunks_flatten i hipc] at this
    exact this.symm
  obtain ⟨mn, hmn⟩ : ∃ mn, (sliceOf primes p i).head? = some mn := by
    match hsl : sliceOf primes p i with
    | [] => exact absurd hsl hslice
    | x :: t => exact ⟨x, rfl⟩
  obtain ⟨mx, hmx⟩ : ∃ mx, (sliceOf primes p i).getLast? = some mx := by
    have hsome := List.getLast?_isSome.mpr hslice
    rcases hx : (sliceOf primes p i).getLast? with _ | x
    · rw [hx] at hsome; simp at hsome
    · exact ⟨x, rfl⟩
  obtain ⟨cm, hcm⟩ := chunk_meta_aux_isOk _ hall []
  simp only [prepare_shard_metadata,
    show pyIdx0 (chunksOfShard primes p i) = .ok c0 from by unfold pyIdx0; rw [hc0],
    show pyIdxLast (chunksOfShard primes p i) = .ok cl from by unfold pyIdxLast; rw [hcl],
    show pyIdx0 c0 = .ok mn from by unfold pyIdx0; rw [hc0head, hmn],
    show pyIdxLast cl = .ok mx from by unfold pyIdxLast; rw [hcllast, hmx],
    hcm]
  unfold recordOf
  rw [hmn, hmx, hcm]
  rfl

theorem dictDel_absent {α : Type} {d : List (String × α)} {k : String}
    (h : dictGet? d k = none) : dictDel d k = d := by
  induction d with
  | nil => rfl
  | cons pr rest ih =>
    obtain ⟨k1, v1⟩ := pr
    unfold dictGet? at h
    split at h
    · exact absurd h (by simp)
    next hne =>
      unfold dictDel
      simp only [List.filter_cons, decide_eq_true_eq]
      rw [if_pos (by simpa using hne)]
      have := ih h
      unfold dictDel at this
      rw [this]

theorem dictGet?_append_singleton_ne {α : Type} (d : List (String × α))
    {k k2 : String} {v : α} (h : dictGet? d k2 = none) (hne : k2 ≠ k) :
    dictGet? (d ++ [(k, v)]) k2 = none := by
  rw [dictGet?_append, h]
  exact dictGet?_singleton_ne hne

theorem generate_name2_ne_empty (a b : Int) : generate_name2 a b ≠ "" := by
  intro h
  have hd := congrArg String.data h
  unfold generate_name2 at hd
  simp only [String.data_append] at hd
  have hm : ('_' : Char) ∈ ((toString a).data ++ ['_'] ++ (toString b).data) := by simp
  rw [hd] at hm
  simp at hm

theorem shard_validate_pairs_ok :
    ∀ {d : ChunkDict}, (∀ pr ∈ d, pr.2 ≠ [] ∧ pr.1 ≠ "") →
      shard_validate_pairs d = .ok () := by
  intro d
  induction d with
  | nil => intro _; rfl
  | cons pr rest ih =>
    intro h
    obtain ⟨k, v⟩ := pr
    obtain ⟨hv, hk⟩ := h (k, v) (by simp)
    unfold shard_validate_pairs
    rw [if_neg (by simpa using hv), if_neg hk]
    exact ih (fun q hq => h q (by simp [hq]))

theorem shard_validate_ok {d : ChunkDict} (hne : d ≠ [])
    (hpairs : ∀ pr ∈ d, pr.2 ≠ [] ∧ pr.1 ≠ "") : shard_validate d = .ok () := by
  unfold shard_validate
  rw [if_neg (by simpa using hne)]
  exact shard_validate_pairs_ok hpairs

/-- Writing a shard file at an absent path appends it, under either
overwrite flag. -/
theorem shardfile_write_fresh {st : Store} {path : String} {d : ChunkDict} (ow : Bool)
    (hval : shard_validate d = .ok ())
    (habs : dictGet? st.shardFiles path = none) :
    shardfile_write st path d ow =
      .ok { st with shardFiles := st.shardFiles ++ [(path, d)] } := by
  unfold shardfile_write
  rw [hval]
  have hhas : dictHas st.shardFiles path = false := by simp [dictHas, habs]
  rcases ow with _ | _
  · rw [if_neg (by simp [hhas])]
    rw [if_neg (by simp)]
  · rw [if_neg (by simp [hhas])]
    rw [if_pos rfl, dictDel_absent habs]

/-- The `shard_dict` of shard `i` validates: the chunk list is nonempty,
every chunk is nonempty, every name is a nonempty string. -/
theorem shardDictOf_validates {primes : List Int} {p : PartitionPlan} {i : Nat}
    (hipc : 0 < ipcN p) (hslice : sliceOf primes p i ≠ []) :
    shard_validate (shardDictOf primes p i) = .ok () := by
  obtain ⟨hcne, hall⟩ := chunks_facts hipc hslice
  apply shard_validate_ok
  · unfold shardDictOf
    simpa using hcne
  · intro pr hpr
    unfold shardDictOf at hpr
    simp only [List.mem_map] at hpr
    obtain ⟨c, hc, rfl⟩ := hpr
    exact ⟨hall c hc, generate_name2_ne_empty _ _⟩

/-- The shard archives `save` writes for the index list `l`. -/
def savedFiles (primes : List Int) (p : PartitionPlan) (l : List Nat) :
    List (String × ChunkDict) :=
  l.map (fun i => (shard_path_name i p.total_shards, shardDictOf primes p i))

/-- The shard paths `save` records for the index list `l`. -/
def savedPaths (p : PartitionPlan) (l : List Nat) : List String :=
  l.map (fun i => shard_path_name i p.total_shards)

/-- The metadata records `save` adds for the index list `l`. -/
def savedRecords (primes : List Int) (p : PartitionPlan) (l : List Nat) :
    List (String × ShardRecord) :=
  l.map (fun i => (shard_path_name i p.total_shards, recordOf primes p i))

/-- The store after the save loop has processed the index list `l`. -/
def savedStore (st : Store) (primes : List Int) (p : PartitionPlan) (l : List Nat) :
    Store :=
  { st with shardFiles := st.shardFiles ++ savedFiles primes p l }

/-- The document after the save loop has processed the index list `l`. -/
def savedDocOf (doc : MetadataDoc) (primes : List Int) (p : PartitionPlan)
    (l : List Nat) : MetadataDoc :=
  { doc with
    shard_paths := doc.shard_paths ++ savedPaths p l,
    shardRecords := doc.shardRecords ++ savedRecords primes p l }

/-- The save loop over fresh paths appends one shard archive per index,
records each path and its record in the document, and touches no other
store component. -/
theorem save_loop_spec {primes : List Int} {p : PartitionPlan} (ow : Bool)
    (hipcI : 0 < p.items_per_chunk)
    (hsorted : primes.Sorted (· < ·)) :
    ∀ (l : List Nat) (st : Store) (doc : MetadataDoc),
      (∀ i ∈ l, sliceOf primes p i ≠ []) →
      (∀ i ∈ l, dictGet? st.shardFiles (shard_path_name i p.total_shards) = none) →
      (∀ i ∈ l, dictGet? doc.shardRecords (shard_path_name i p.total_shards) = none) →
      l.Pairwise (· ≠ ·) →
      save_loop primes p ow st doc l =
        .ok (savedStore st primes p l, savedDocOf doc primes p l) := by
  have hipc : 0 < ipcN p := by unfold ipcN; omega
  intro l
  induction l with
  | nil =>
    intro st doc _ _ _ _
    simp [save_loop, savedStore, savedDocOf, savedFiles, savedPaths, savedRecords]
  | cons i rest ih =>
    intro st doc hsl hfile hrec hnodup
    have hslice := hsl i (by simp)
    have hchunks := @shard_chunks_eq primes p i hipcI
    have hsliceSorted : (sliceOf primes p i).Sorted (· < ·) := pySlice_sorted hsorted _ _
    obtain ⟨hcne, hall⟩ := chunks_facts hipc hslice
    have hprep := prepare_shard_metadata_eq hipc hslice
    have hbuild := build_shard_dict_append (chunksOfShard primes p i) [] hall
      (fun c hc => rfl) (chunk_names_distinct hsliceSorted hipc hall)
    have hbuild2 : build_shard_dict [] (chunksOfShard primes p i) =
        .ok (shardDictOf primes p i) := by
      rw [hbuild, List.nil_append]
      rfl
    have hwrite := @shardfile_write_fresh st _ _ ow (shardDictOf_validates hipc hslice)
      (hfile i (by simp))
    have hne_path : ∀ j ∈ rest,
        shard_path_name j p.total_shards ≠ shard_path_name i p.total_shards := by
      intro j hj heq
      exact (List.pairwise_cons.mp hnodup).1 j hj (shard_path_name_inj heq).symm
    have hfile2 : ∀ j ∈ rest,
        dictGet? (st.shardFiles ++
            [(shard_path_name i p.total_shards, shardDictOf primes p i)])
          (shard_path_name j p.total_shards) = none := by
      intro j hj
      exact dictGet?_append_singleton_ne _ (hfile j (by simp [hj])) (hne_path j hj)
    have hrec2 : ∀ j ∈ rest,
        dictGet? (doc.shardRecords ++
            [(shard_path_name i p.total_shards, recordOf primes p i)])
          (shard_path_name j p.total_shards) = none := by
      intro j hj
      exact dictGet?_append_singleton_ne _ (hrec j (by simp [hj])) (hne_path j hj)
    have hdictset : dictSet doc.shardRecords (shard_path_name i p.total_shards)
        (recordOf primes p i) =
        doc.shardRecords ++ [(shard_path_name i p.total_shards, recordOf primes p i)] :=
      dictSet_absent _ (hrec i (by simp))
    have hstep := ih
      { st with shardFiles := st.shardFiles ++
          [(shard_path_name i p.total_shards, shardDictOf primes p i)] }
      { doc with
        shard_paths := doc.shard_paths ++ [shard_path_name i p.total_shards],
        shardRecords := doc.shardRecords ++
          [(shard_path_name i p.total_shards, recordOf primes p i)] }
      (fun j hj => hsl j (by simp [hj])) hfile2 hrec2 (List.pairwise_cons.mp hnodup).2
    have hslform : pySlice primes (i * p.items_per_shard.toNat)
        ((i + 1) * p.items_per_shard.toNat) = sliceOf primes p i := rfl
    simp only [save_loop, hslform, hchunks, hprep, hbuild2, hwrite, hdictset]
    simp [hstep, savedStore, savedDocOf, savedFiles, savedPaths, savedRecords]

/-- The metadata document `save` seeds before the shard loop
(`manager.py` lines 210-233). -/
def baseDoc (A : List Int) (p : PartitionPlan) (itemsize sbs cbs : Int) : MetadataDoc :=
  { chunk_size := cbs, shard_size := sbs, itemsize := itemsize,
    total_bytes := (A.length : Int) * itemsize, total_primes := (A.length : Int),
    shard_paths := [], config := p, total_chunks := p.total_chunks,
    total_shards := p.total_shards, shardRecords := [] }

/-- The document `save` hands to `MetadataFile.write`. -/
def finalDoc (A : List Int) (p : PartitionPlan) (itemsize sbs cbs : Int) : MetadataDoc :=
  savedDocOf (baseDoc A p itemsize sbs cbs) A p (List.range p.total_shards.toNat)

/-- The store a successful fresh `save` produces. -/
def finalStore (st : Store) (A : List Int) (p : PartitionPlan) (mp : String)
    (itemsize sbs cbs : Int) (ow2 : Bool) : Store :=
  { st with
    shardFiles := st.shardFiles ++ savedFiles A p (List.range p.total_shards.toNat),
    metadataFiles := dictSet st.metadataFiles mp
      (writtenDoc (if ow2 then none else dictGet? st.metadataFiles mp)
        (finalDoc A p itemsize sbs cbs)) }

/-- Every shard slice of a successful plan over a sorted nonempty array
is nonempty. -/
theorem slices_nonempty {A : List Int} {p : PartitionPlan} {itemsize : Int}
    {tsc tcps : Option Int} {sbs cbs : Int}
    (hp : calculate_plan (A.length : Int) itemsize tsc tcps (some sbs) (some cbs) = .ok p)
    (hne : A ≠ []) :
    ∀ i ∈ List.range p.total_shards.toNat, sliceOf A p i ≠ [] := by
  obtain ⟨hips, hipc, hS, hcover, hlt⟩ := plan_shard_facts hp hne
  intro i hi
  rw [List.mem_range] at hi
  unfold sliceOf
  apply pySlice_ne_nil (hlt i hi)
  have : i * ipsN p + ipsN p = (i + 1) * ipsN p := (Nat.succ_mul i (ipsN p)).symm
  omega

/-- `ShardManager.save` on a sorted duplicate-free nonempty array, with
all shard paths, the metadata lock and the metadata hash absent: writes
exactly the characterised shard files and document. -/
theorem shard_manager_save_fresh {st : Store} {A : List Int} {mp : String}
    {itemsize : Int} {tsc tcps : Option Int} {sbs cbs : Int} {p : PartitionPlan}
    (ow1 ow2 : Bool)
    (hA : A.Sorted (· < ·)) (hne : A ≠ [])
    (hp : calculate_plan (A.length : Int) itemsize tsc tcps (some sbs) (some cbs) = .ok p)
    (hfile : ∀ i ∈ List.range p.total_shards.toNat,
      dictGet? st.shardFiles (shard_path_name i p.total_shards) = none)
    (hlock : dictGet? st.locks mp = none)
    (hhash : dictGet? st.hashFiles mp = none) :
    shard_manager_save st (some A) mp itemsize tsc tcps sbs cbs ow1 ow2 =
      .ok (finalStore st A p mp itemsize sbs cbs ow2) := by
  have hlen : 0 < A.length := List.length_pos.mpr hne
  have htot : (0 : Int) < (A.length : Int) := by exact_mod_cast hlen
  obtain ⟨-, hipcI⟩ := calculate_plan_pos htot hp
  have hloop := save_loop_spec ow1 hipcI hA (List.range p.total_shards.toNat) st
    (baseDoc A p itemsize sbs cbs) (slices_nonempty hp hne) hfile
    (fun i _ => rfl) (List.nodup_range _)
  have hwritten := @metadata_write_fresh (savedStore st A p
    (List.range p.total_shards.toNat)) _ (finalDoc A p itemsize sbs cbs) ow2 hlock hhash
  simp only [shard_manager_save, npUnique_eq_self hA, hp]
  rw [show save_loop A p ow1 st
      { chunk_size := cbs, shard_size := sbs, itemsize := itemsize,
        total_bytes := (A.length : Int) * itemsize, total_primes := (A.length : Int),
        shard_paths := [], config := p, total_chunks := p.total_chunks,
        total_shards := p.total_shards, shardRecords := [] }
      (List.range p.total_shards.toNat) =
    .ok (savedStore st A p (List.range p.total_shards.toNat),
      finalDoc A p itemsize sbs cbs) from hloop]
  show metadata_write (savedStore st A p (List.range p.total_shards.toNat)) mp
      (some (finalDoc A p itemsize sbs cbs)) ow2 =
    .ok (finalStore st A p mp itemsize sbs cbs ow2)
  rw [hwritten]
  rfl

theorem dictGet?_mapped {α : Type} (f : Nat → String) (g : Nat → α) :
    ∀ (l : List Nat) (i : Nat), i ∈ l →
      (∀ j ∈ l, f j = f i → j = i) →
      dictGet? (l.map (fun j => (f j, g j))) (f i) = some (g i) := by
  intro l
  induction l with
  | nil => intro i hi _; simp at hi
  | cons a rest ih =>
    intro i hi hinj
    simp only [List.map_cons]
    unfold dictGet?
    by_cases ha : f a = f i
    · rw [if_pos ha]
      rw [hinj a (by simp) ha]
    · rw [if_neg ha]
      rcases List.mem_cons.mp hi with rfl | hi2
      · exact absurd rfl ha
      · exact ih i hi2 (fun j hj => hinj j (by simp [hj]))

/-- Looking a saved shard path up in the extended shard file set. -/
theorem dictGet?_savedFiles {st : Store} {A : List Int} {p : PartitionPlan} {i : Nat}
    (hi : i ∈ List.range p.total_shards.toNat)
    (habs : dictGet? st.shardFiles (shard_path_name i p.total_shards) = none) :
    dictGet? (st.shardFiles ++ savedFiles A p (List.range p.total_shards.toNat))
      (shard_path_name i p.total_shards) = some (shardDictOf A p i) := by
  rw [dictGet?_append, habs]
  exact dictGet?_mapped _ _ _ i hi
    (fun j _ heq => shard_path_name_inj heq)

/-- Looking a saved shard path up among the saved records. -/
theorem dictGet?_savedRecords {A : List Int} {p : PartitionPlan} {i : Nat}
    (hi : i ∈ List.range p.total_shards.toNat) :
    dictGet? (savedRecords A p (List.range p.total_shards.toNat))
      (shard_path_name i p.total_shards) = some (recordOf A p i) :=
  dictGet?_mapped _ _ _ i hi (fun j _ heq => shard_path_name_inj heq)

/-- Reading back one saved shard returns the sorted deduplicated slice. -/
theorem shardfile_read_saved {st : Store} {A : List Int} {p : PartitionPlan} {i : Nat}
    (hipc : 0 < ipcN p)
    (hget : dictGet? st.shardFiles (shard_path_name i p.total_shards) =
      some (shardDictOf A p i)) :
    shardfile_read st (shard_path_name i p.total_shards) =
      .ok (npUnique (sliceOf A p i)) := by
  unfold shardfile_read
  rw [hget]
  show Except.ok (npUnique ((shardDictOf A p i).map Prod.snd).flatten) =
    .ok (npUnique (sliceOf A p i))
  have hvals0 : ∀ cs : List (List Int), (cs.map (fun c => (nameOf c, c))).map Prod.snd = cs := by
    intro cs
    induction cs with
    | nil => rfl
    | cons c t ih => simp only [List.map_cons, ih]
  have hvals : (shardDictOf A p i).map Prod.snd = chunksOfShard A p i := hvals0 _
  rw [hvals, chunks_flatten i hipc]

/-- The load loop over saved shard paths collects exactly the slices of
the shards whose interval test returns true. -/
theorem load_loop_spec {st : Store} {doc : MetadataDoc} {interval : Int × Option Int}
    {A : List Int} {p : PartitionPlan} (hipc : 0 < ipcN p) (b : Nat → Bool) :
    ∀ (l : List Nat) (acc : List (List Int)),
      (∀ i ∈ l, dictGet? doc.shardRecords (shard_path_name i p.total_shards) =
        some (recordOf A p i)) →
      (∀ i ∈ l, dictGet? st.shardFiles (shard_path_name i p.total_shards) =
        some (shardDictOf A p i)) →
      (∀ i ∈ l, interval_intersection interval (recordOf A p i).prime_interval =
        .ok (b i)) →
      load_loop st doc interval acc
          (l.map (fun i => shard_path_name i p.total_shards)) =
        .ok (acc ++ (l.filter b).map (fun i => npUnique (sliceOf A p i))) := by
  intro l
  induction l with
  | nil => intro acc _ _ _; simp [load_loop]
  | cons i rest ih =>
    intro acc hrec hfile hint
    have hread := @shardfile_read_saved st _ _ _ hipc (hfile i (by simp))
    have hstep := fun acc2 => ih acc2 (fun j hj => hrec j (by simp [hj]))
      (fun j hj => hfile j (by simp [hj])) (fun j hj => hint j (by simp [hj]))
    simp only [List.map_cons, load_loop, hrec i (by simp), hint i (by simp), hread]
    rcases hb : b i with _ | _
    · simp only [Bool.false_eq_true, if_false]
      rw [hstep acc]
      simp [List.filter_cons, hb]
    · simp only [if_true]
      rw [hstep (acc ++ [npUnique (sliceOf A p i)])]
      simp [List.filter_cons, hb]

/-- The recorded interval of shard `i`: endpoints bound the slice, and
they are strictly ordered when the slice has at least two elements. -/
theorem recordOf_interval_facts {A : List Int} {p : PartitionPlan} {i : Nat}
    (hA : A.Sorted (· < ·)) (hlen2 : 2 ≤ (sliceOf A p i).length) :
    (recordOf A p i).prime_interval.1 < (recordOf A p i).prime_interval.2 ∧
      (∀ x ∈ sliceOf A p i, (recordOf A p i).prime_interval.1 ≤ x ∧
        x ≤ (recordOf A p i).prime_interval.2) ∧
      (recordOf A p i).prime_interval.2 ∈ sliceOf A p i := by
  have hs : (sliceOf A p i).Sorted (· < ·) := pySlice_sorted hA _ _
  have hne : sliceOf A p i ≠ [] := by
    intro h
    rw [h] at hlen2
    simp at hlen2
  obtain ⟨mn, hmn⟩ : ∃ mn, (sliceOf A p i).head? = some mn := by
    match hsl : sliceOf A p i with
    | [] => exact absurd hsl hne
    | x :: t => exact ⟨x, rfl⟩
  obtain ⟨mx, hmx⟩ : ∃ mx, (sliceOf A p i).getLast? = some mx := by
    have hsome := List.getLast?_isSome.mpr hne
    rcases hx : (sliceOf A p i).getLast? with _ | x
    · rw [hx] at hsome; simp at hsome
    · exact ⟨x, rfl⟩
  have hint : (recordOf A p i).prime_interval = (mn, mx) := by
    unfold recordOf
    rw [hmn, hmx]
    rfl
  rw [hint]
  refine ⟨sorted_head_lt_getLast hs hlen2 hmn hmx, ?_, mem_of_getLast? hmx⟩
  intro x hx
  exact ⟨sorted_head?_le hs hmn x hx, sorted_le_getLast? hs hmx x hx⟩

/-- C1 (amended): on a fresh store, saving a sorted duplicate-free
nonempty array of positive integers and loading back with the default
unbounded range returns exactly the array, provided the computed plan
gives every shard at least two elements.  (The counterexample shows both
side conditions are forced by the strict interval test in `load`.) -/
theorem c1_round_trip {st : Store} {A : List Int} {mp : String}
    {itemsize : Int} {tsc tcps : Option Int} {sbs cbs : Int} {p : PartitionPlan}
    (ow1 ow2 : Bool)
    (hA : A.Sorted (· < ·)) (hne : A ≠ [])
    (hpos : ∀ x ∈ A, 0 < x)
    (hp : calculate_plan (A.length : Int) itemsize tsc tcps (some sbs) (some cbs) = .ok p)
    (hlen2 : ∀ i ∈ List.range p.total_shards.toNat, 2 ≤ (sliceOf A p i).length)
    (hfile : ∀ i ∈ List.range p.total_shards.toNat,
      dictGet? st.shardFiles (shard_path_name i p.total_shards) = none)
    (hlock : dictGet? st.locks mp = none)
    (hhash : dictGet? st.hashFiles mp = none)
    (hmeta : dictGet? st.metadataFiles mp = none) :
    ∃ st2, shard_manager_save st (some A) mp itemsize tsc tcps sbs cbs ow1 ow2 = .ok st2 ∧
      shard_manager_load st2 none none mp = .ok A := by
  obtain ⟨hips, hipc, hSpos, hcover, -⟩ := plan_shard_facts hp hne
  refine ⟨_, shard_manager_save_fresh ow1 ow2 hA hne hp hfile hlock hhash, ?_⟩
  have hdocW : writtenDoc (if ow2 = true then none else dictGet? st.metadataFiles mp)
      (finalDoc A p itemsize sbs cbs) = finalDoc A p itemsize sbs cbs := by
    rcases ow2 with _ | _ <;> simp [writtenDoc, hmeta]
  have hread : metadata_read (finalStore st A p mp itemsize sbs cbs ow2) mp false =
      .ok (some (finalDoc A p itemsize sbs cbs)) := by
    unfold metadata_read
    have h1 : dictHas (finalStore st A p mp itemsize sbs cbs ow2).locks mp = false := by
      simp [finalStore, dictHas, hlock]
    have h2 : hash_verify_at (finalStore st A p mp itemsize sbs cbs ow2) mp = .ok false :=
      hash_verify_at_nohash (by simpa [finalStore] using hhash)
    have h3 : dictGet? (finalStore st A p mp itemsize sbs cbs ow2).metadataFiles mp =
        some (finalDoc A p itemsize sbs cbs) := by
      show dictGet? (dictSet st.metadataFiles mp _) mp = _
      rw [dictGet?_set_self, hdocW]
    rw [if_neg (by simp [h1]), h2, h3]
  have hrecs : ∀ i ∈ List.range p.total_shards.toNat,
      dictGet? (finalDoc A p itemsize sbs cbs).shardRecords
        (shard_path_name i p.total_shards) = some (recordOf A p i) := by
    intro i hi
    show dictGet? ([] ++ savedRecords A p (List.range p.total_shards.toNat)) _ = _
    rw [List.nil_append]
    exact dictGet?_savedRecords hi
  have hfiles : ∀ i ∈ List.range p.total_shards.toNat,
      dictGet? (finalStore st A p mp itemsize sbs cbs ow2).shardFiles
        (shard_path_name i p.total_shards) = some (shardDictOf A p i) := by
    intro i hi
    show dictGet? (st.shardFiles ++ savedFiles A p (List.range p.total_shards.toNat)) _ = _
    exact dictGet?_savedFiles hi (hfile i hi)
  have hints : ∀ i ∈ List.range p.total_shards.toNat,
      interval_intersection ((0 : Int), (none : Option Int))
        (recordOf A p i).prime_interval = .ok true := by
    intro i hi
    obtain ⟨hlt, hbound, hmaxmem⟩ := recordOf_interval_facts hA (hlen2 i hi)
    have hmaxpos : 0 < (recordOf A p i).prime_interval.2 :=
      hpos _ (pySlice_subset hmaxmem)
    unfold interval_intersection lt_inf
    rw [if_neg (by simp), if_neg (by simp [hlt])]
    simp [hmaxpos]
  have hloop := @load_loop_spec (finalStore st A p mp itemsize sbs cbs ow2)
    (finalDoc A p itemsize sbs cbs) _ A p hipc (fun _ => true)
    (List.range p.total_shards.toNat) [] hrecs hfiles
    (fun i hi => hints i hi)
  have hpaths : (finalDoc A p itemsize sbs cbs).shard_paths =
      (List.range p.total_shards.toNat).map
        (fun i => shard_path_name i p.total_shards) := by
    show [] ++ savedPaths p (List.range p.total_shards.toNat) = _
    rw [List.nil_append]
    rfl
  have hcollect : (List.range p.total_shards.toNat).map
      (fun i => npUnique (sliceOf A p i)) =
      (List.range p.total_shards.toNat).map (sliceOf A p) := by
    apply List.map_congr_left
    intro i _
    exact npUnique_eq_self (pySlice_sorted hA _ _)
  have hSne : List.range p.total_shards.toNat ≠ [] := by
    simp only [ne_eq, List.range_eq_nil]
    omega
  have hiv : (pyOrInt none 0, pyOrInf none) = ((0 : Int), (none : Option Int)) := rfl
  have hfinal : ([] : List (List Int)) ++
      ((List.range p.total_shards.toNat).filter (fun _ => true)).map
        (fun i => npUnique (sliceOf A p i)) =
      (List.range p.total_shards.toNat).map (sliceOf A p) := by
    rw [List.nil_append, List.filter_true, hcollect]
  have hne2 : (List.range p.total_shards.toNat).map (sliceOf A p) ≠ [] := by
    simp only [ne_eq, List.map_eq_nil_iff, List.range_eq_nil]
    omega
  have hEmpty : ((List.range p.total_shards.toNat).map (sliceOf A p)).isEmpty = false := by
    rcases hmap : (List.range p.total_shards.toNat).map (sliceOf A p) with _ | ⟨a, t⟩
    · exact absurd hmap hne2
    · rfl
  simp only [shard_manager_load, hiv, hread, hpaths, hloop, hfinal, hEmpty,
    Bool.false_eq_true, if_false]
  rw [slices_flatten hips hcover, npUnique_eq_self hA]

/-- C1 witness: the amended round trip at `A = [2,3,5,7]` with two
two-element shards. -/
theorem c1_round_trip_witness :
    ∃ st2, shard_manager_save emptyStore (some [2, 3, 5, 7]) "m.json" 8
        (some 2) (some 1) 100 100 false false = .ok st2 ∧
      shard_manager_load st2 none none "m.json" = .ok [2, 3, 5, 7] :=
  @c1_round_trip emptyStore [2, 3, 5, 7] "m.json" 8 (some 2) (some 1) 100 100
    ⟨2, 1, 2, 2, 2⟩ false false (by decide) (by decide) (by decide) (by decide)
    (by decide) (by decide) rfl rfl rfl

/-- C1 counterexample: for the sorted duplicate-free nonempty array
`[2, 3, 5]` and the valid knob `target_shard_count = 3`, `load` after
`save` raises `ValueError` instead of returning the array: the plan gives
single-element shards, whose degenerate `prime_interval` fails the strict
`pmin < pmax` check in `interval_intersection`. -/
theorem c1_round_trip_counterexample :
    (do
      let st ← shard_manager_save emptyStore (some [2, 3, 5]) "m.json" 8
        (some 3) (some 2) 100 100 false false
      shard_manager_load st none none "m.json") = .error .valueError := by decide

/-- C3 (amended): after a fresh save of a sorted duplicate-free nonempty
array whose shards all hold at least two elements, a bounded load with
`0 ≤ lo < hi` that succeeds returns only values from the array, and
returns every stored value strictly between `lo` and `hi`.  (The strict
intersection test can drop the boundary values `lo` and `hi` themselves
and raises on degenerate requests, as the counterexample shows, so the
claimed inclusive `[lo, hi]` guarantee fails.) -/
theorem c3_range_filter {st : Store} {A : List Int} {mp : String}
    {itemsize : Int} {tsc tcps : Option Int} {sbs cbs : Int} {p : PartitionPlan}
    {lo hi : Int} (ow1 ow2 : Bool)
    (hA : A.Sorted (· < ·)) (hne : A ≠ [])
    (hp : calculate_plan (A.length : Int) itemsize tsc tcps (some sbs) (some cbs) = .ok p)
    (hlen2 : ∀ i ∈ List.range p.total_shards.toNat, 2 ≤ (sliceOf A p i).length)
    (hfile : ∀ i ∈ List.range p.total_shards.toNat,
      dictGet? st.shardFiles (shard_path_name i p.total_shards) = none)
    (hlock : dictGet? st.locks mp = none)
    (hhash : dictGet? st.hashFiles mp = none)
    (hmeta : dictGet? st.metadataFiles mp = none)
    (hlo : 0 ≤ lo) (hlh : lo < hi) :
    ∀ st2 r,
      shard_manager_save st (some A) mp itemsize tsc tcps sbs cbs ow1 ow2 = .ok st2 →
      shard_manager_load st2 (some lo) (some hi) mp = .ok r →
      (∀ x ∈ r, x ∈ A) ∧ (∀ x ∈ A, lo < x → x < hi → x ∈ r) := by
  intro st2 r hsave hload
  rw [shard_manager_save_fresh ow1 ow2 hA hne hp hfile hlock hhash] at hsave
  have hst2 : finalStore st A p mp itemsize sbs cbs ow2 = st2 := Except.ok.inj hsave
  subst hst2
  obtain ⟨hips, hipc, hSpos, hcover, -⟩ := plan_shard_facts hp hne
  have hdocW : writtenDoc (if ow2 = true then none else dictGet? st.metadataFiles mp)
      (finalDoc A p itemsize sbs cbs) = finalDoc A p itemsize sbs cbs := by
    rcases ow2 with _ | _ <;> simp [writtenDoc, hmeta]
  have hread : metadata_read (finalStore st A p mp itemsize sbs cbs ow2) mp false =
      .ok (some (finalDoc A p itemsize sbs cbs)) := by
    unfold metadata_read
    have h1 : dictHas (finalStore st A p mp itemsize sbs cbs ow2).locks mp = false := by
      simp [finalStore, dictHas, hlock]
    have h2 : hash_verify_at (finalStore st A p mp itemsize sbs cbs ow2) mp = .ok false :=
      hash_verify_at_nohash (by simpa [finalStore] using hhash)
    have h3 : dictGet? (finalStore st A p mp itemsize sbs cbs ow2).metadataFiles mp =
        some (finalDoc A p itemsize sbs cbs) := by
      show dictGet? (dictSet st.metadataFiles mp _) mp = _
      rw [dictGet?_set_self, hdocW]
    rw [if_neg (by simp [h1]), h2, h3]
  have hrecs : ∀ i ∈ List.range p.total_shards.toNat,
      dictGet? (finalDoc A p itemsize sbs cbs).shardRecords
        (shard_path_name i p.total_shards) = some (recordOf A p i) := by
    intro i hi2
    show dictGet? ([] ++ savedRecords A p (List.range p.total_shards.toNat)) _ = _
    rw [List.nil_append]
    exact dictGet?_savedRecords hi2
  have hfiles : ∀ i ∈ List.range p.total_shards.toNat,
      dictGet? (finalStore st A p mp itemsize sbs cbs ow2).shardFiles
        (shard_path_name i p.total_shards) = some (shardDictOf A p i) := by
    intro i hi2
    show dictGet? (st.shardFiles ++ savedFiles A p (List.range p.total_shards.toNat)) _ = _
    exact dictGet?_savedFiles hi2 (hfile i hi2)
  have h0 : ¬ hi = 0 := by omega
  have hiv : (pyOrInt (some lo) 0, pyOrInf (some hi)) = (lo, some hi) := by
    by_cases hl0 : lo = 0 <;> simp [pyOrInt, pyOrInf, hl0, h0]
  have hints : ∀ i ∈ List.range p.total_shards.toNat,
      interval_intersection (lo, some hi) (recordOf A p i).prime_interval =
        .ok (decide (lo < (recordOf A p i).prime_interval.2) &&
          decide ((recordOf A p i).prime_interval.1 < hi)) := by
    intro i hi2
    obtain ⟨hlt, -, -⟩ := recordOf_interval_facts hA (hlen2 i hi2)
    simp only [interval_intersection, lt_inf]
    rw [if_neg (by simp [hlh]), if_neg (by simp [hlt])]
  have hloop := @load_loop_spec (finalStore st A p mp itemsize sbs cbs ow2)
    (finalDoc A p itemsize sbs cbs) _ A p hipc
    (fun i => decide (lo < (recordOf A p i).prime_interval.2) &&
      decide ((recordOf A p i).prime_interval.1 < hi))
    (List.range p.total_shards.toNat) [] hrecs hfiles hints
  have hpaths : (finalDoc A p itemsize sbs cbs).shard_paths =
      (List.range p.total_shards.toNat).map
        (fun i => shard_path_name i p.total_shards) := by
    show [] ++ savedPaths p (List.range p.total_shards.toNat) = _
    rw [List.nil_append]
    rfl
  simp only [shard_manager_load, hiv, hread, hpaths, hloop, List.nil_append] at hload
  split at hload
  · simp at hload
  · have hr := Except.ok.inj hload
    subst hr
    refine ⟨?_, ?_⟩
    · intro x hx
      have hx2 := mem_npUnique.mp hx
      rw [List.mem_flatten] at hx2
      obtain ⟨l, hl, hxl⟩ := hx2
      rw [List.mem_map] at hl
      obtain ⟨i, hi2, rfl⟩ := hl
      exact pySlice_subset (mem_npUnique.mp hxl)
    · intro x hxA hxlo hxhi
      have hxflat : x ∈ ((List.range p.total_shards.toNat).map (sliceOf A p)).flatten := by
        rw [slices_flatten hips hcover]
        exact hxA
      rw [List.mem_flatten] at hxflat
      obtain ⟨l, hl, hxl⟩ := hxflat
      rw [List.mem_map] at hl
      obtain ⟨i, hi2, rfl⟩ := hl
      obtain ⟨-, hbound, -⟩ := recordOf_interval_facts hA (hlen2 i hi2)
      obtain ⟨hbl, hbu⟩ := hbound x hxl
      have hb : (decide (lo < (recordOf A p i).prime_interval.2) &&
          decide ((recordOf A p i).prime_interval.1 < hi)) = true := by
        simp only [Bool.and_eq_true, decide_eq_true_eq]
        exact ⟨by omega, by omega⟩
      apply mem_npUnique.mpr
      rw [List.mem_flatten]
      refine ⟨npUnique (sliceOf A p i), ?_, mem_npUnique.mpr hxl⟩
      rw [List.mem_map]
      exact ⟨i, List.mem_filter.mpr ⟨hi2, hb⟩, rfl⟩

/-- C3 counterexample: `[2, 3, 5, 7]` is stored as shards `[2, 3]` and
`[5, 7]`; the inclusive request `[3, 4]` holds the stored value `3`, yet
`load` raises `ValueError`: both shards fail the strict intersection
test, so nothing is collected. -/
theorem c3_range_filter_counterexample :
    (do
      let st ← shard_manager_save emptyStore (some [2, 3, 5, 7]) "m.json" 8
        (some 2) (some 1) 100 100 false false
      shard_manager_load st (some 3) (some 4) "m.json") = .error .valueError ∧
      (3 : Int) ∈ [(2 : Int), 3, 5, 7] ∧ (3 : Int) ≤ 3 ∧ (3 : Int) ≤ 4 := by decide

/-- C3 witness: the amended range filter at `A = [2, 3, 5, 7]`,
`lo = 2`, `hi = 6`. -/
theorem c3_range_filter_witness :
    ∃ st2 r,
      shard_manager_save emptyStore (some [2, 3, 5, 7]) "m.json" 8 (some 2)
        (some 1) 100 100 false false = .ok st2 ∧
      shard_manager_load st2 (some 2) (some 6) "m.json" = .ok r ∧
      (∀ x ∈ r, x ∈ [(2 : Int), 3, 5, 7]) ∧
      (∀ x ∈ [(2 : Int), 3, 5, 7], 2 < x → x < 6 → x ∈ r) := by
  have hsave : shard_manager_save emptyStore (some [2, 3, 5, 7]) "m.json" 8 (some 2)
      (some 1) 100 100 false false =
      .ok (finalStore emptyStore [2, 3, 5, 7] ⟨2, 1, 2, 2, 2⟩ "m.json" 8 100 100 false) :=
    shard_manager_save_fresh false false (by decide) (by decide) (by decide)
      (by decide) rfl rfl
  have hload : shard_manager_load
      (finalStore emptyStore [2, 3, 5, 7] ⟨2, 1, 2, 2, 2⟩ "m.json" 8 100 100 false)
      (some 2) (some 6) "m.json" = .ok [2, 3, 5, 7] := by decide
  have h := @c3_range_filter emptyStore [2, 3, 5, 7] "m.json" 8 (some 2) (some 1)
    100 100 ⟨2, 1, 2, 2, 2⟩ 2 6 false false (by decide) (by decide) (by decide)
    (by decide) (by decide) rfl rfl rfl (by decide) (by decide) _ _ hsave hload
  exact ⟨_, _, hsave, hload, h.1, h.2⟩

/-- C6 (corrected): `save` rejects only a missing (`None`) array with
`ValueError`.  An empty (zero-length) array is accepted whenever its plan
resolves: the save writes no shard files, leaves locks and hashes as it
found them, and does write a metadata document recording zero primes and
no shard paths — the claimed rejection of empty input does not happen. -/
theorem c6_empty_save {st : Store} {mp : String} {itemsize : Int}
    {tsc tcps : Option Int} {sbs cbs : Int} {p : PartitionPlan} (ow1 ow2 : Bool)
    (hp : calculate_plan 0 itemsize tsc tcps (some sbs) (some cbs) = .ok p)
    (hlock : dictGet? st.locks mp = none)
    (hhash : dictGet? st.hashFiles mp = none) :
    shard_manager_save st none mp itemsize tsc tcps sbs cbs ow1 ow2 =
        .error .valueError ∧
      ∃ st2, shard_manager_save st (some []) mp itemsize tsc tcps sbs cbs ow1 ow2 =
          .ok st2 ∧
        st2.shardFiles = st.shardFiles ∧ st2.locks = st.locks ∧
        st2.hashFiles = st.hashFiles ∧
        ∃ doc, dictGet? st2.metadataFiles mp = some doc ∧
          doc.total_primes = 0 ∧ doc.shard_paths = [] := by
  refine ⟨rfl, ?_⟩
  obtain ⟨ipc0, hips, hipc0, hclamp, hcps, hts, htc⟩ := calculate_plan_ok hp
  have hts0 : p.total_shards.toNat = 0 := by
    rw [hts]
    simp [pyCeil, Int.zero_fdiv]
  have hp2 : calculate_plan ((npUnique ([] : List Int)).length : Int) itemsize tsc
      tcps (some sbs) (some cbs) = .ok p := hp
  simp only [shard_manager_save, hp2, hts0, List.range_zero, save_loop]
  rw [metadata_write_fresh _ ow2 hlock hhash]
  refine ⟨_, rfl, rfl, rfl, rfl, _, dictGet?_set_self _ _ _, ?_⟩
  rcases ow2 with _ | _ <;>
    rcases hcur : dictGet? st.metadataFiles mp with _ | old <;>
      simp [writtenDoc, mergeDocs, hcur] <;> decide

/-- C6 counterexample: saving the concrete empty array succeeds instead
of raising, and it writes a metadata document (while indeed writing no
shard files). -/
theorem c6_empty_save_counterexample :
    (shard_manager_save emptyStore (some []) "m.json" 8 none (some 2) 100 100
        false false).map
      (fun st2 => ((dictGet? st2.metadataFiles "m.json").isSome,
        st2.shardFiles.length)) = .ok (true, 0) := by decide

/-- C6 witness: the corrected behaviour at the empty array with byte-limit
sharding and two chunks per shard. -/
theorem c6_empty_save_witness :
    shard_manager_save emptyStore none "m.json" 8 none (some 2) 100 100 false false =
        .error .valueError ∧
      ∃ st2, shard_manager_save emptyStore (some []) "m.json" 8 none (some 2)
          100 100 false false = .ok st2 ∧
        st2.shardFiles = emptyStore.shardFiles ∧ st2.locks = emptyStore.locks ∧
        st2.hashFiles = emptyStore.hashFiles ∧
        ∃ doc, dictGet? st2.metadataFiles "m.json" = some doc ∧
          doc.total_primes = 0 ∧ doc.shard_paths = [] :=
  @c6_empty_save emptyStore "m.json" 8 none (some 2) 100 100 ⟨12, 2, 6, 0, 0⟩
    false false (by decide) rfl rfl

/-- C10 (confirmed): a fresh successful `save` records in `shard_paths`,
and writes through the shard factory, exactly the paths
`<data_directory>/prime_shard_{i+1}_of_{N}.npz` under the fixed
module-level data directory — expressions in which the `metadata_path`
argument does not occur — while locks and hashes are restored and the
metadata mapping changes at `metadata_path` only. -/
theorem c10_data_directory {st : Store} {A : List Int} {mp : String}
    {itemsize : Int} {tsc tcps : Option Int} {sbs cbs : Int} {p : PartitionPlan}
    (ow1 ow2 : Bool)
    (hA : A.Sorted (· < ·)) (hne : A ≠ [])
    (hp : calculate_plan (A.length : Int) itemsize tsc tcps (some sbs) (some cbs) = .ok p)
    (hfile : ∀ i ∈ List.range p.total_shards.toNat,
      dictGet? st.shardFiles (shard_path_name i p.total_shards) = none)
    (hlock : dictGet? st.locks mp = none)
    (hhash : dictGet? st.hashFiles mp = none) :
    ∀ st2, shard_manager_save st (some A) mp itemsize tsc tcps sbs cbs ow1 ow2 = .ok st2 →
      (∃ doc, dictGet? st2.metadataFiles mp = some doc ∧
        doc.shard_paths = (List.range p.total_shards.toNat).map
          (fun i => data_directory ++ "/prime_shard_" ++ toString (i + 1) ++ "_of_" ++
            toString p.total_shards ++ ".npz")) ∧
      st2.shardFiles = st.shardFiles ++ (List.range p.total_shards.toNat).map
        (fun i => (data_directory ++ "/prime_shard_" ++ toString (i + 1) ++ "_of_" ++
          toString p.total_shards ++ ".npz", shardDictOf A p i)) ∧
      st2.locks = st.locks ∧ st2.hashFiles = st.hashFiles ∧
      (∀ q, q ≠ mp → dictGet? st2.metadataFiles q = dictGet? st.metadataFiles q) := by
  intro st2 hsave
  rw [shard_manager_save_fresh ow1 ow2 hA hne hp hfile hlock hhash] at hsave
  have hst2 : finalStore st A p mp itemsize sbs cbs ow2 = st2 := Except.ok.inj hsave
  subst hst2
  refine ⟨⟨_, dictGet?_set_self _ _ _, ?_⟩, rfl, rfl, rfl, ?_⟩
  · rcases ow2 with _ | _ <;>
      rcases hcur : dictGet? st.metadataFiles mp with _ | old <;>
        simp [writtenDoc, mergeDocs, hcur] <;> rfl
  · intro q hq
    exact dictGet?_set_ne _ _ hq

/-- C10 witness: the fixed shard paths for `A = [2, 3, 5, 7]` split into
two shards, saved under the metadata path `"m.json"`. -/
theorem c10_data_directory_witness :
    ∃ st2, shard_manager_save emptyStore (some [2, 3, 5, 7]) "m.json" 8 (some 2)
        (some 1) 100 100 false false = .ok st2 ∧
      (∃ doc, dictGet? st2.metadataFiles "m.json" = some doc ∧
        doc.shard_paths = (List.range 2).map
          (fun i => data_directory ++ "/prime_shard_" ++ toString (i + 1) ++ "_of_" ++
            toString (2 : Int) ++ ".npz")) ∧
      st2.shardFiles = emptyStore.shardFiles ++ (List.range 2).map
        (fun i => (data_directory ++ "/prime_shard_" ++ toString (i + 1) ++ "_of_" ++
          toString (2 : Int) ++ ".npz", shardDictOf [2, 3, 5, 7] ⟨2, 1, 2, 2, 2⟩ i)) ∧
      st2.locks = emptyStore.locks ∧ st2.hashFiles = emptyStore.hashFiles := by
  have hsave : shard_manager_save emptyStore (some [2, 3, 5, 7]) "m.json" 8 (some 2)
      (some 1) 100 100 false false =
      .ok (finalStore emptyStore [2, 3, 5, 7] ⟨2, 1, 2, 2, 2⟩ "m.json" 8 100 100 false) :=
    shard_manager_save_fresh false false (by decide) (by decide) (by decide)
      (by decide) rfl rfl
  have h := @c10_data_directory emptyStore [2, 3, 5, 7] "m.json" 8 (some 2) (some 1)
    100 100 ⟨2, 1, 2, 2, 2⟩ false false (by decide) (by decide) (by decide)
    (by decide) rfl rfl _ hsave
  exact ⟨_, hsave, h.1, h.2.1, h.2.2.1, h.2.2.2.1⟩

end Storage